import Mathlib

-- Verification of the packer-breadcrumbs core: a shallow embedding of the
-- reference scanner (manifest.go), the packer variable resolver
-- (packerutil.go) and the artifact materializer file operations
-- (provisioner.go), together with theorems about the specified properties.
-- Go strings and byte slices are both modelled as lists of characters
-- (every operation involved is byte-oriented; a Char plays the role of one
-- byte). Go int results of -1 ("not found") are modelled with Option.

namespace Breadcrumbs

abbrev Str := List Char

-- ### Go standard library primitives used by the code

-- bytes.Index / strings.Index: index of the first occurrence of pat in l,
-- none when absent; Index(l, "") = 0.
def firstOcc : Str → Str → Option Nat
  | l, pat =>
    if pat.isPrefixOf l then some 0
    else
      match l with
      | [] => none
      | _ :: t => (firstOcc t pat).map (· + 1)

-- bytes.LastIndexByte: index of the last occurrence of byte ch in l.
def lastIdxByte : Str → Char → Option Nat
  | [], _ => none
  | c :: t, ch =>
    match lastIdxByte t ch with
    | some j => some (j + 1)
    | none => if c = ch then some 0 else none

-- bytes.LastIndex / strings.LastIndex: start index of the last occurrence
-- of pat in l; LastIndex(l, "") = len(l).
def goLastIndex : Str → Str → Option Nat
  | [], pat => if pat = [] then some 0 else none
  | c :: t, pat =>
    match goLastIndex t pat with
    | some j => some (j + 1)
    | none => if pat.isPrefixOf (c :: t) then some 0 else none

-- The Go slice expression l[i:j] (valid when i <= j <= len l).
def extract (l : Str) (i j : Nat) : Str := (l.drop i).take (j - i)

-- The Go slice expression l[i:j] including its bounds check: none models a
-- Go runtime panic (slice bounds out of range).
def goSlice (l : Str) (i j : Nat) : Option Str :=
  if i ≤ j ∧ j ≤ l.length then some (extract l i j) else none

-- strings.HasPrefix.
def goHasPre (pre s : Str) : Bool := pre.isPrefixOf s

-- strings.TrimSpace, restricted to the ASCII white space characters
-- (the only ones the code ever produces or meets in the modelled paths).
def isSpaceChar (c : Char) : Bool := c = ' ' ∨ c = '\t' ∨ c = '\n' ∨ c = '\r'

def goTrimSpace (s : Str) : Str :=
  ((s.dropWhile isSpaceChar).reverse.dropWhile isSpaceChar).reverse

-- ### Constants from packerutil.go / provisioner.go

def packerVariableDelims : Str := ['{', '}']
def startPackerVariableBytes : Str := ['{', '{']
def endPackerVariableBytes : Str := ['}', '}']
def newLineBytes : Str := ['\n']
def doubleQuoteChar : Char := '\"'
def possibleDelims : Str := ['\'', '\"', ' ']
def httpFilePre : Str := ['h', 't', 't', 'p', ':', '/', '/']
def httpsFilePre : Str := ['h', 't', 't', 'p', 's', ':', '/', '/']

-- ### SHA-256 (crypto/sha256.Sum256) over byte values, and %x hex encoding

def w32 (x : Nat) : Nat := x % 4294967296
def add32 (a b : Nat) : Nat := (a + b) % 4294967296
def rotr32 (n x : Nat) : Nat := w32 ((x >>> n) ||| (x <<< (32 - n)))
def not32 (x : Nat) : Nat := 4294967295 ^^^ x

def shaCh (x y z : Nat) : Nat := (x &&& y) ^^^ (not32 x &&& z)
def shaMaj (x y z : Nat) : Nat := (x &&& y) ^^^ (x &&& z) ^^^ (y &&& z)
def bigSigma0 (x : Nat) : Nat := rotr32 2 x ^^^ rotr32 13 x ^^^ rotr32 22 x
def bigSigma1 (x : Nat) : Nat := rotr32 6 x ^^^ rotr32 11 x ^^^ rotr32 25 x
def smallSigma0 (x : Nat) : Nat := rotr32 7 x ^^^ rotr32 18 x ^^^ (x >>> 3)
def smallSigma1 (x : Nat) : Nat := rotr32 17 x ^^^ rotr32 19 x ^^^ (x >>> 10)

def shaK : List Nat :=
  [1116352408, 1899447441, 3049323471, 3921009573, 961987163, 1508970993,
   2453635748, 2870763221, 3624381080, 310598401, 607225278, 1426881987,
   1925078388, 2162078206, 2614888103, 3248222580, 3835390401, 4022224774,
   264347078, 604807628, 770255983, 1249150122, 1555081692, 1996064986,
   2554220882, 2821834349, 2952996808, 3210313671, 3336571891, 3584528711,
   113926993, 338241895, 666307205, 773529912, 1294757372, 1396182291,
   1695183700, 1986661051, 2177026350, 2456956037, 2730485921, 2820302411,
   3259730800, 3345764771, 3516065817, 3600352804, 4094571909, 275423344,
   430227734, 506948616, 659060556, 883997877, 958139571, 1322822218,
   1537002063, 1747873779, 1955562222, 2024104815, 2227730452, 2361852424,
   2428436474, 2756734187, 3204031479, 3329325298]

def shaH0 : List Nat :=
  [1779033703, 3144134277, 1013904242, 2773480762,
   1359893119, 2600822924, 528734635, 1541459225]

-- k-byte big-endian encoding of n.
def beBytes : Nat → Nat → List Nat
  | 0, _ => []
  | k + 1, n => beBytes k (n >>> 8) ++ [n &&& 255]

def padMessage (msg : List Nat) : List Nat :=
  let L := msg.length
  let padLen := (64 - (L + 9) % 64) % 64
  msg ++ [128] ++ List.replicate padLen 0 ++ beBytes 8 (L * 8)

def wordsOfBytes : List Nat → List Nat
  | b0 :: b1 :: b2 :: b3 :: rest =>
    ((((b0 <<< 8) ||| b1) <<< 8 ||| b2) <<< 8 ||| b3) :: wordsOfBytes rest
  | _ => []

def scheduleFrom (ws : List Nat) : Nat → List Nat
  | 0 => ws
  | k + 1 =>
    let cur := scheduleFrom ws k
    cur ++ [add32
      (add32 (smallSigma1 (cur.getD (cur.length - 2) 0)) (cur.getD (cur.length - 7) 0))
      (add32 (smallSigma0 (cur.getD (cur.length - 15) 0)) (cur.getD (cur.length - 16) 0))]

def compressRound (st : List Nat) (kt wt : Nat) : List Nat :=
  match st with
  | [a, b, c, d, e, f, g, h] =>
    let t1 := add32 (add32 (add32 h (bigSigma1 e)) (add32 (shaCh e f g) kt)) wt
    let t2 := add32 (bigSigma0 a) (shaMaj a b c)
    [add32 t1 t2, a, b, c, add32 d t1, e, f, g]
  | _ => st

def compressBlock (H : List Nat) (block : List Nat) : List Nat :=
  let wsched := scheduleFrom (wordsOfBytes block) 48
  let final := (List.range 64).foldl
    (fun st t => compressRound st (shaK.getD t 0) (wsched.getD t 0)) H
  List.zipWith add32 H final

def chunks64 : List Nat → List (List Nat)
  | [] => []
  | x :: t => (x :: t).take 64 :: chunks64 ((x :: t).drop 64)
  termination_by l => l.length
  decreasing_by simp; omega

def sha256 (msg : List Nat) : List Nat :=
  (((chunks64 (padMessage msg)).foldl compressBlock shaH0).map (beBytes 4)).flatten

-- The sixteen lowercase hex digits 0-9 a-f, as %x formats them.
def hexDigitChars : Str :=
  (List.range 10).map (fun n => Char.ofNat (48 + n))
    ++ (List.range 6).map (fun n => Char.ofNat (97 + n))

def hexByte (b : Nat) : Str :=
  [hexDigitChars.getD (b / 16 % 16) '0', hexDigitChars.getD (b % 16) '0']

def hexOfBytes (bs : List Nat) : Str := (bs.map hexByte).flatten

-- The UTF-8 bytes of a string ([]byte(s) in Go).
def utf8EncodeChar (c : Char) : List Nat :=
  let n := c.toNat
  if n < 128 then [n]
  else if n < 2048 then [192 ||| (n >>> 6), 128 ||| (n &&& 63)]
  else if n < 65536 then
    [224 ||| (n >>> 12), 128 ||| ((n >>> 6) &&& 63), 128 ||| (n &&& 63)]
  else
    [240 ||| (n >>> 18), 128 ||| ((n >>> 12) &&& 63),
     128 ||| ((n >>> 6) &&& 63), 128 ||| (n &&& 63)]

def utf8Encode (s : Str) : List Nat := (s.map utf8EncodeChar).flatten

-- hashBytes (manifest.go): fmt.Sprintf("%x", sha256.Sum256(s)), i.e. the
-- lowercase hex encoding of the SHA-256 digest.
def hashBytes (s : List Nat) : Str := hexOfBytes (sha256 s)

-- filepath.Base for slash-separated paths (the shape the code passes in).
def goPathBase (p : Str) : Str :=
  if p = [] then ['.']
  else
    let q := (p.reverse.dropWhile (· = '/')).reverse
    if q = [] then ['/']
    else (q.reverse.takeWhile (fun c => c ≠ '/')).reverse

-- filepath.Dir for slash-separated paths.
def goPathDir (p : Str) : Str :=
  let q := (p.reverse.dropWhile (fun c => c ≠ '/')).reverse
  let r := (q.reverse.dropWhile (· = '/')).reverse
  if p = [] then ['.']
  else if r = [] then (if q = [] then ['.'] else ['/'])
  else r

-- filepath.Join of two components (path.Clean normalisation elided: the
-- joined path only ever flows into the directory-walk collaborator).
def goPathJoin (a b : Str) : Str :=
  if a = [] then b else if b = [] then a else a ++ '/' :: b

-- ### Basic facts about the search primitives

theorem firstOcc_some_spec (pat : Str) :
    ∀ (l : Str) (i : Nat), firstOcc l pat = some i →
      pat <+: l.drop i ∧ i + pat.length ≤ l.length := by
  intro l
  induction l with
  | nil =>
    intro i h
    rw [firstOcc] at h
    by_cases hp : pat.isPrefixOf ([] : Str)
    · simp [hp] at h
      subst h
      refine ⟨?_, ?_⟩
      · simpa using (List.isPrefixOf_iff_prefix.mp hp)
      · have := (List.isPrefixOf_iff_prefix.mp hp).length_le
        simpa using this
    · simp [hp] at h
  | cons c t ih =>
    intro i h
    rw [firstOcc] at h
    by_cases hp : pat.isPrefixOf (c :: t)
    · simp [hp] at h
      subst h
      refine ⟨by simpa using (List.isPrefixOf_iff_prefix.mp hp), ?_⟩
      have := (List.isPrefixOf_iff_prefix.mp hp).length_le
      simpa using this
    · simp [hp] at h
      obtain ⟨j, hj, rfl⟩ := h
      obtain ⟨h1, h2⟩ := ih j hj
      refine ⟨by simpa using h1, by simp; omega⟩

theorem firstOcc_none_spec (pat : Str) :
    ∀ (l : Str), firstOcc l pat = none → ∀ j, ¬ pat <+: l.drop j := by
  intro l
  induction l with
  | nil =>
    intro h j hpre
    rw [firstOcc] at h
    by_cases hp : pat.isPrefixOf ([] : Str)
    · simp [hp] at h
    · simp [hp] at h
      exact hp (List.isPrefixOf_iff_prefix.mpr (by simpa using hpre))
  | cons c t ih =>
    intro h j hpre
    rw [firstOcc] at h
    by_cases hp : pat.isPrefixOf (c :: t)
    · simp [hp] at h
    · simp [hp] at h
      match j with
      | 0 => exact hp (List.isPrefixOf_iff_prefix.mpr (by simpa using hpre))
      | j + 1 => exact ih h j (by simpa using hpre)

theorem firstOcc_min_spec (pat : Str) :
    ∀ (l : Str) (i : Nat), firstOcc l pat = some i →
      ∀ j, j < i → ¬ pat <+: l.drop j := by
  intro l
  induction l with
  | nil =>
    intro i h j hj
    rw [firstOcc] at h
    by_cases hp : pat.isPrefixOf ([] : Str)
    · simp [hp] at h; omega
    · simp [hp] at h
  | cons c t ih =>
    intro i h j hj hpre
    rw [firstOcc] at h
    by_cases hp : pat.isPrefixOf (c :: t)
    · simp [hp] at h; omega
    · simp [hp] at h
      obtain ⟨k, hk, rfl⟩ := h
      match j with
      | 0 => exact hp (List.isPrefixOf_iff_prefix.mpr (by simpa using hpre))
      | j + 1 => exact ih k hk j (by omega) (by simpa using hpre)

theorem firstOcc_ne_none_of_occ (pat l : Str) (j : Nat) (h : pat <+: l.drop j) :
    firstOcc l pat ≠ none := by
  intro hn
  exact firstOcc_none_spec pat l hn j h

theorem firstOcc_nil_pat (l : Str) : firstOcc l [] = some 0 := by
  cases l <;> rw [firstOcc] <;> simp [List.isPrefixOf]

theorem lastIdxByte_some_spec (ch : Char) :
    ∀ (l : Str) (i : Nat), lastIdxByte l ch = some i →
      i < l.length ∧ l.getD i ' ' = ch := by
  intro l
  induction l with
  | nil => intro i h; simp [lastIdxByte] at h
  | cons c t ih =>
    intro i h
    rw [lastIdxByte] at h
    match hm : lastIdxByte t ch with
    | some j =>
      rw [hm] at h
      simp at h
      subst h
      obtain ⟨h1, h2⟩ := ih j hm
      exact ⟨by simpa using Nat.succ_lt_succ h1, by simpa using h2⟩
    | none =>
      rw [hm] at h
      by_cases hc : c = ch
      · simp [hc] at h
        subst h
        simp [hc]
      · simp [hc] at h

theorem lastIdxByte_none_spec (ch : Char) :
    ∀ (l : Str), lastIdxByte l ch = none → ch ∉ l := by
  intro l
  induction l with
  | nil => intro _ h; simp at h
  | cons c t ih =>
    intro h hm
    rw [lastIdxByte] at h
    match hmm : lastIdxByte t ch with
    | some j => rw [hmm] at h; simp at h
    | none =>
      rw [hmm] at h
      by_cases hc : c = ch
      · simp [hc] at h
      · rcases List.mem_cons.mp hm with h1 | h1
        · exact hc h1.symm
        · exact ih hmm h1

-- ### Data model (provisioner.go): FileSource, FileMeta

inductive FileSource where
  | Unknown
  | LocalStorage
  | HttpHost
  | HttpsHost
deriving DecidableEq, Repr

structure FileMeta where
  Name : Str := []
  FoundAtPath : Str := []
  StoredAtPath : Str := []
  Source : FileSource := FileSource.Unknown
  unresolved : Bool := false
deriving DecidableEq, Repr

-- newFileMeta (manifest.go).
def newFileMeta (filePath : Str) : FileMeta :=
  { Name := goPathBase filePath
    FoundAtPath := filePath
    StoredAtPath := hashBytes (utf8Encode filePath)
    Source :=
      if goHasPre httpFilePre filePath then FileSource.HttpHost
      else if goHasPre httpsFilePre filePath then FileSource.HttpsHost
      else FileSource.LocalStorage
    unresolved := false }

-- newUnresolvedFileMeta (manifest.go).
def newUnresolvedFileMeta (s : Str) : FileMeta :=
  { FoundAtPath := s, unresolved := true }

-- ### Reference scanner (manifest.go)

-- The delimiter selection at the top of fileWithSuffix: a double quote by
-- default, or raw[endDelimIndex] when that byte exists and is one of the
-- possible delimiters (bytes.ContainsAny with a one-byte operand).
def chooseDelim (raw : Str) (endDelimIndex : Nat) : Char :=
  match raw[endDelimIndex]? with
  | some c => if c ∈ possibleDelims then c else doubleQuoteChar
  | none => doubleQuoteChar

-- fileWithSuffix (manifest.go): some (result, endDelimIndex) models
-- wasFound = true; none models wasFound = false.
def fileWithSuffix (suffix raw : Str) : Option (Str × Nat) :=
  match firstOcc raw suffix with
  | none => none
  | some suffixStartIndex =>
    let endDelimIndex := suffixStartIndex + suffix.length
    let delim := chooseDelim raw endDelimIndex
    match lastIdxByte (raw.take suffixStartIndex) delim with
    | none => none
    | some startIndex =>
      if startIndex + 1 > endDelimIndex then none
      else
        match firstOcc (extract raw startIndex endDelimIndex) endPackerVariableBytes with
        | some endPackerVarIndex =>
          if endPackerVarIndex > 0 then
            let lineStartIndex :=
              match goLastIndex (raw.take endDelimIndex) newLineBytes with
              | some l => l
              | none => 0
            match firstOcc (extract raw lineStartIndex endDelimIndex) startPackerVariableBytes with
            | some varOpenIndex =>
              some (extract raw (lineStartIndex + varOpenIndex) endDelimIndex, endDelimIndex)
            | none => some (extract raw startIndex endDelimIndex, endDelimIndex)
          else some (extract raw (startIndex + 1) endDelimIndex, endDelimIndex)
        | none => some (extract raw (startIndex + 1) endDelimIndex, endDelimIndex)

theorem fileWithSuffix_endIdx (suffix raw res : Str) (e : Nat)
    (h : fileWithSuffix suffix raw = some (res, e)) : 0 < e ∧ e ≤ raw.length := by
  rw [fileWithSuffix] at h
  match hocc : firstOcc raw suffix with
  | none => rw [hocc] at h; simp at h
  | some suffixStartIndex =>
    rw [hocc] at h
    simp only at h
    have hbound := firstOcc_some_spec suffix raw suffixStartIndex hocc
    -- the suffix cannot be empty: then suffixStartIndex = 0 and the
    -- delimiter search over raw[:0] fails
    by_cases hsuf : suffix = []
    · subst hsuf
      rw [firstOcc_nil_pat] at hocc
      simp at hocc
      subst hocc
      simp [lastIdxByte] at h
    · have hlen : 0 < suffix.length := List.length_pos.mpr hsuf
      match hlast : lastIdxByte (raw.take suffixStartIndex)
          (chooseDelim raw (suffixStartIndex + suffix.length)) with
      | none => rw [hlast] at h; simp at h
      | some startIndex =>
        rw [hlast] at h
        by_cases hgt : startIndex + 1 > suffixStartIndex + suffix.length
        · simp [hgt] at h
        · simp only [hgt, if_false] at h
          -- every remaining branch returns endDelimIndex as e
          have he : e = suffixStartIndex + suffix.length := by
            match hocc2 : firstOcc (extract raw startIndex (suffixStartIndex + suffix.length))
                endPackerVariableBytes with
            | none => rw [hocc2] at h; simp at h; omega
            | some k =>
              rw [hocc2] at h
              by_cases hk : k > 0
              · simp only [hk, if_true] at h
                match hvo : firstOcc
                    (extract raw
                      (match goLastIndex (raw.take (suffixStartIndex + suffix.length)) newLineBytes with
                        | some l => l
                        | none => 0)
                      (suffixStartIndex + suffix.length)) startPackerVariableBytes with
                | some v => rw [hvo] at h; simp at h; omega
                | none => rw [hvo] at h; simp at h; omega
              · simp only [hk, if_false] at h
                simp at h; omega
          constructor
          · omega
          · omega

-- filesWithSuffixRecursive (manifest.go).
def filesWithSuffixRecursive (suffix raw : Str) (metas : List FileMeta)
    (unresolvedIndexes : List Nat) : List FileMeta × List Nat :=
  match h : fileWithSuffix suffix raw with
  | some (resultRaw, endIndex) =>
    if resultRaw.length ≠ suffix.length then
      if resultRaw.any (fun c => c ∈ packerVariableDelims) then
        filesWithSuffixRecursive suffix (raw.drop endIndex)
          (metas ++ [newUnresolvedFileMeta resultRaw]) (unresolvedIndexes ++ [metas.length])
      else
        filesWithSuffixRecursive suffix (raw.drop endIndex)
          (metas ++ [newFileMeta resultRaw]) unresolvedIndexes
    else
      filesWithSuffixRecursive suffix (raw.drop endIndex) metas unresolvedIndexes
  | none => (metas, unresolvedIndexes)
  termination_by raw.length
  decreasing_by
    all_goals
      have := fileWithSuffix_endIdx suffix raw resultRaw endIndex h
      simp
      omega

-- ### Variable resolver (packerutil.go)

inductive PackerVariable where
  | none
  | user
  | special
deriving DecidableEq, Repr

inductive VarRes where
  | resolved
  | unknownVarType
  | missingVar
deriving DecidableEq, Repr

-- Errors surfaced along the modelled code paths.
inductive GoError where
  | unknownPackerVariableType (raw : Str)
  | packerVariableNotExist (name : Str)
  | doesNotContainPackerVariable (s : Str)
  | failedToTrimVariable (inner : GoError)
  | failedToLookupFile (inner : GoError)
  | fileNotFoundInDir (name dir : Str)
  | walkError
  | localFileExceedsMax (sourcePath : Str) (maxSizeBytes : Nat)
  | httpFileExceedsMax (url : Str) (maxSizeBytes : Nat)
  | httpStatusNotOk (url : Str) (status : Nat)
  | httpNetworkError
  | ioError
deriving DecidableEq, Repr

structure PackerResolutionResult where
  str : Str := []
  result : VarRes
  err : Option GoError := Option.none
deriving DecidableEq, Repr

def backtickChar : Char := Char.ofNat 96
def userTypeName : Str := ['u', 's', 'e', 'r']

-- strings.Replace(s, pat, val, -1): replace every occurrence, scanning left
-- to right and continuing after each inserted replacement. The code only
-- calls it with a nonempty pattern (a raw span starting with two braces).
def goReplaceAll (s pat val : Str) : Str :=
  if hp : pat = [] then s
  else
    match h : firstOcc s pat with
    | Option.none => s
    | some i => s.take i ++ val ++ goReplaceAll (s.drop (i + pat.length)) pat val
  termination_by s.length
  decreasing_by
    have hb := firstOcc_some_spec pat s i h
    have hl : 0 < pat.length := List.length_pos.mpr hp
    simp
    omega

-- The index-skipping loop inside nextPackerVariable: Go iterates i over the
-- range of str[startIndex:] (length captured once, counted down here by the
-- structural parameter remaining = n - i) while mutating startIndex in the
-- body; str[i+startIndex] can therefore run out of range (modelled by
-- Option.none = panic). Sum.inl models the early return on a closing brace
-- (advance = current startIndex); Sum.inr is the final startIndex after the
-- loop breaks or completes.
def skipLoop (str : Str) (i startIndex : Nat) : Nat → Option (Sum Nat Nat)
  | 0 => some (Sum.inr startIndex)
  | remaining + 1 =>
    match str[i + startIndex]? with
    | Option.none => Option.none
    | some c =>
      if c = ' ' then skipLoop str (i + 1) (startIndex + 1) remaining
      else if c = '}' then some (Sum.inl startIndex)
      else some (Sum.inr startIndex)

-- nextPackerVariable (packerutil.go); Option.none models a panic of the Go
-- function (slice bounds or index out of range).
def nextPackerVariable (str : Str) : Option (Str × Nat × Str × Bool) :=
  match firstOcc str startPackerVariableBytes with
  | Option.none => some ([], str.length, [], false)
  | some startIndex =>
    match firstOcc str endPackerVariableBytes with
    | Option.none => some ([], str.length, [], false)
    | some endIndex =>
      match goSlice str startIndex (endIndex + endPackerVariableBytes.length) with
      | Option.none => Option.none
      | some raw =>
        let startIndex1 := startIndex + startPackerVariableBytes.length
        match skipLoop str 0 startIndex1 (str.length - startIndex1) with
        | Option.none => Option.none
        | some (Sum.inl advance) => some ([], advance, [], false)
        | some (Sum.inr startIndex2) =>
          match goSlice str startIndex2 endIndex with
          | Option.none => Option.none
          | some body =>
            some (raw, endIndex + endPackerVariableBytes.length, goTrimSpace body, true)

-- packerVariableTypeAndName (packerutil.go); Option.none models the panic
-- when body[startIndex:endIndex] has startIndex > endIndex.
def packerVariableTypeAndName (body : Str) : Option (PackerVariable × Str) :=
  if goHasPre userTypeName body then
    match firstOcc body [backtickChar] with
    | Option.none => some (PackerVariable.none, [])
    | some startIndex =>
      match goLastIndex body [backtickChar] with
      | Option.none => some (PackerVariable.none, [])
      | some endIndex =>
        match goSlice body (startIndex + 1) endIndex with
        | Option.none => Option.none
        | some name => some (PackerVariable.user, name)
  else if goHasPre ['.'] body then
    some (PackerVariable.special, body.drop 1)
  else some (PackerVariable.none, [])

theorem nextPackerVariable_found_adv (s raw body : Str) (adv : Nat)
    (h : nextPackerVariable s = some (raw, adv, body, true)) : 0 < adv := by
  rw [nextPackerVariable] at h
  repeat' split at h
  all_goals ((try simp only at h); try (repeat' split at h))
  all_goals simp_all [endPackerVariableBytes]
  all_goals omega

-- The loop body of resolvePackerVariables (packerutil.go); i is the cursor
-- into the original str, resolvedString the accumulating result.
def resolveLoop (str : Str) (existing : Str → Option Str) (i : Nat)
    (resolvedString : Str) : Option PackerResolutionResult :=
  if _hlt : i < str.length then
    match hn : nextPackerVariable (str.drop i) with
    | Option.none => Option.none
    | some (raw, advance, body, wasFound) =>
      if hw : wasFound then
        match packerVariableTypeAndName body with
        | Option.none => Option.none
        | some (varType, name) =>
          if varType = PackerVariable.none then
            some { str := [], result := VarRes.unknownVarType,
                   err := some (GoError.unknownPackerVariableType raw) }
          else
            match existing name with
            | some v =>
              resolveLoop str existing (i + advance) (goReplaceAll resolvedString raw v)
            | Option.none =>
              some { str := [], result := VarRes.missingVar,
                     err := some (GoError.packerVariableNotExist name) }
      else some { str := resolvedString, result := VarRes.resolved }
  else some { str := resolvedString, result := VarRes.resolved }
  termination_by str.length - i
  decreasing_by
    subst hw
    have := nextPackerVariable_found_adv (str.drop i) raw body advance hn
    omega

-- resolvePackerVariables (packerutil.go).
def resolvePackerVariables (str : Str) (existing : Str → Option Str) :
    Option PackerResolutionResult :=
  resolveLoop str existing 0 str

-- trimVariableStringToFile (packerutil.go).
def trimVariableStringToFile (str : Str) : Except GoError (Str × Str) :=
  match goLastIndex str endPackerVariableBytes with
  | Option.none => Except.error (GoError.doesNotContainPackerVariable str)
  | some lastBraceIndex =>
    let s := str.drop (lastBraceIndex + endPackerVariableBytes.length)
    Except.ok (goPathDir s, goPathBase s)

-- ### Manifest builder core (newManifest, manifest.go lines 62-90)

-- The inner loop over unresolvedIndexes. findFileInDir is the
-- findFileInDirRecursive collaborator (a filesystem walk, modelled as an
-- oracle from file name and directory to a result). Option.none models a
-- propagated panic.
def resolveUnresolvedLoop (existing : Str → Option Str)
    (findFileInDir : Str → Str → Except GoError Str) (projectDirPath : Str)
    (results : List FileMeta) : List Nat → Option (Except GoError (List FileMeta))
  | [] => some (Except.ok results)
  | index :: rest =>
    match results[index]? with
    | Option.none => Option.none
    | some fm =>
      match resolvePackerVariables fm.FoundAtPath existing with
      | Option.none => Option.none
      | some resolution =>
        match resolution.result with
        | VarRes.unknownVarType =>
          some (Except.error (resolution.err.getD GoError.ioError))
        | VarRes.missingVar =>
          match trimVariableStringToFile fm.FoundAtPath with
          | Except.error e => some (Except.error (GoError.failedToTrimVariable e))
          | Except.ok (dir, name) =>
            match findFileInDir name (goPathJoin projectDirPath dir) with
            | Except.error e => some (Except.error (GoError.failedToLookupFile e))
            | Except.ok filePath =>
              resolveUnresolvedLoop existing findFileInDir projectDirPath
                (results.set index (newFileMeta filePath)) rest
        | VarRes.resolved =>
          resolveUnresolvedLoop existing findFileInDir projectDirPath
            (results.set index (newFileMeta resolution.str)) rest

-- The per-suffix loop of newManifest, accumulating foundFileMetas.
def buildFoundFilesAux (templateRaw : Str) (existing : Str → Option Str)
    (findFileInDir : Str → Str → Except GoError Str) (projectDirPath : Str)
    (acc : List FileMeta) : List Str → Option (Except GoError (List FileMeta))
  | [] => some (Except.ok acc)
  | suffix :: restSuffixes =>
    let scanned := filesWithSuffixRecursive suffix templateRaw [] []
    match resolveUnresolvedLoop existing findFileInDir projectDirPath
        scanned.1 scanned.2 with
    | Option.none => Option.none
    | some (Except.error e) => some (Except.error e)
    | some (Except.ok resolved) =>
      buildFoundFilesAux templateRaw existing findFileInDir projectDirPath
        (acc ++ resolved) restSuffixes

-- The FoundFiles computation of newManifest.
def buildFoundFiles (includeSuffixes : List Str) (templateRaw : Str)
    (existing : Str → Option Str) (findFileInDir : Str → Str → Except GoError Str)
    (projectDirPath : Str) : Option (Except GoError (List FileMeta)) :=
  buildFoundFilesAux templateRaw existing findFileInDir projectDirPath [] includeSuffixes

-- ### Artifact materializer file operations (provisioner.go lines 734-798)

inductive GoIOError where
  | eof
  | other
deriving DecidableEq, Repr

-- Model of io.Copy draining a reader backed by in-memory bytes: Go io.Copy
-- reads until EOF, and a successful copy returns err == nil, not err ==
-- io.EOF; reading a pure byte stream produces no other error.
def ioCopy (readerContent : Str) : Str × Option GoIOError := (readerContent, Option.none)

-- io.LimitReader(r, n): the bytes obtainable from the limited reader.
def goLimitReaderContent (src : Str) (maxSizeBytes : Nat) : Str := src.take maxSizeBytes

-- copyLocalFile (provisioner.go): returns the bytes written to the
-- destination (opened with O_TRUNC|O_CREATE, so it starts empty) and the
-- returned error.
def copyLocalFile (sourcePath sourceContent : Str) (maxSizeBytes : Nat) :
    Str × Option GoError :=
  let sourceLimiter := goLimitReaderContent sourceContent maxSizeBytes
  match ioCopy sourceLimiter with
  | (written, Option.none) => (written, Option.none)
  | (written, some GoIOError.eof) =>
    (written, some (GoError.localFileExceedsMax sourcePath maxSizeBytes))
  | (written, some GoIOError.other) => (written, some GoError.ioError)

-- getHttpFile (provisioner.go): the first component is the destination
-- file state after the call (Option.none = file does not exist); the
-- response parameter models the HTTP client result (Option.none = network
-- error). priorDest is the destination state before the call; OpenFile with
-- O_TRUNC|O_CREATE replaces it with an empty file before the GET is issued.
def getHttpFile (urlStr : Str) (response : Option (Nat × Str)) (maxSizeBytes : Nat)
    (priorDest : Option Str) : Option Str × Option GoError :=
  let dest : Option Str := some []
  match response with
  | Option.none => (dest, some GoError.httpNetworkError)
  | some (status, bodyContent) =>
    if status ≠ 200 then (dest, some (GoError.httpStatusNotOk urlStr status))
    else
      match ioCopy (goLimitReaderContent bodyContent maxSizeBytes) with
      | (written, Option.none) => (some written, Option.none)
      | (written, some GoIOError.eof) =>
        (some written, some (GoError.httpFileExceedsMax urlStr maxSizeBytes))
      | (written, some GoIOError.other) => (some written, some GoError.ioError)

-- ### Claims C1, C3, C10 (materializer file operations)

/-- C1: the claim states that materializing a local source of exactly
maxFileSizeBytes + 1 bytes fails with a file-too-large error naming the
source path, while a source of exactly maxFileSizeBytes bytes succeeds.
The code contradicts the first half: io.Copy never returns io.EOF (its
contract is that a successful copy returns err == nil, not err == EOF), so
the size check in copyLocalFile is unreachable and a 5-byte source with a
4-byte limit succeeds silently, writing a truncated 4-byte destination.
The error return inside copyLocalFile shows the claimed behaviour is the
code's own intent, so this is a code bug, not a spec error. -/
theorem copyLocalFile_oversize_succeeds_bug :
    copyLocalFile ['s'] ['a', 'a', 'a', 'a', 'a'] 4 = (['a', 'a', 'a', 'a'], Option.none) ∧
    copyLocalFile ['s'] ['a', 'a', 'a', 'a'] 4 = (['a', 'a', 'a', 'a'], Option.none) := by
  exact ⟨rfl, rfl⟩

/-- C3: materialization writes at most maxSizeBytes bytes to the
destination for every source kind: the local copy streams through
io.LimitReader(source, maxSizeBytes), and the HTTP fetch streams the
response body through the same limiting reader (writing nothing at all on
a failed fetch). -/
theorem materialization_writes_at_most_max (sourcePath sourceContent urlStr : Str)
    (response : Option (Nat × Str)) (maxSizeBytes : Nat) (priorDest : Option Str) :
    (copyLocalFile sourcePath sourceContent maxSizeBytes).1.length ≤ maxSizeBytes ∧
    (∀ d, (getHttpFile urlStr response maxSizeBytes priorDest).1 = some d →
      d.length ≤ maxSizeBytes) := by
  constructor
  · simp [copyLocalFile, ioCopy, goLimitReaderContent]
  · intro d hd
    match response with
    | Option.none =>
      simp [getHttpFile] at hd
      subst hd
      simp
    | some (status, bodyContent) =>
      by_cases hs : status = 200
      · simp [getHttpFile, hs, ioCopy, goLimitReaderContent] at hd
        subst hd
        simp
      · simp [getHttpFile, hs] at hd
        subst hd
        simp

/-- Witness for materialization_writes_at_most_max at a concrete local
source, response and limit. -/
theorem materialization_writes_at_most_max_witness :
    (copyLocalFile ['s'] ['a', 'b', 'c'] 2).1.length ≤ 2 ∧
    (['x', 'y'] : Str).length ≤ 2 := by
  have h := materialization_writes_at_most_max ['s'] ['a', 'b', 'c'] ['u']
    (some (200, ['x', 'y', 'z'])) 2 Option.none
  exact ⟨h.1, h.2 ['x', 'y'] rfl⟩

/-- C10: getHttpFile opens the destination with O_TRUNC|O_CREATE before
issuing the GET, so every failed fetch (network error or non-200 status,
the latter reported with the URL and status code) leaves the destination
existing and truncated to zero bytes: the failure does not leave the
destination filesystem state unchanged. -/
theorem getHttpFile_failure_truncates (urlStr : Str) (maxSizeBytes : Nat)
    (priorDest : Option Str) :
    ((getHttpFile urlStr Option.none maxSizeBytes priorDest).1 = some [] ∧
     (getHttpFile urlStr Option.none maxSizeBytes priorDest).2 =
       some GoError.httpNetworkError) ∧
    (∀ status bodyContent, status ≠ 200 →
      (getHttpFile urlStr (some (status, bodyContent)) maxSizeBytes priorDest).1 = some [] ∧
      (getHttpFile urlStr (some (status, bodyContent)) maxSizeBytes priorDest).2 =
        some (GoError.httpStatusNotOk urlStr status)) := by
  refine ⟨⟨rfl, rfl⟩, ?_⟩
  intro status bodyContent hs
  constructor
  · simp [getHttpFile, hs]
  · simp [getHttpFile, hs]

/-- Witness for getHttpFile_failure_truncates: a 404 response with a
nonempty prior destination file is truncated to an empty file and the
error carries the URL and the status code. -/
theorem getHttpFile_failure_truncates_witness :
    (getHttpFile ['u'] (some (404, ['b'])) 5 (some ['o', 'l', 'd'])).1 = some [] ∧
    (getHttpFile ['u'] (some (404, ['b'])) 5 (some ['o', 'l', 'd'])).2 =
      some (GoError.httpStatusNotOk ['u'] 404) := by
  exact (getHttpFile_failure_truncates ['u'] 5 (some ['o', 'l', 'd'])).2 404 ['b']
    (by decide)

-- ### Unfold lemmas for the recursive definitions

def defaultFM : FileMeta := {}

theorem filesWithSuffixRecursive_stop (suffix raw : Str) (metas : List FileMeta)
    (idxs : List Nat) (h : fileWithSuffix suffix raw = Option.none) :
    filesWithSuffixRecursive suffix raw metas idxs = (metas, idxs) := by
  rw [filesWithSuffixRecursive]
  split
  · rename_i res e heq
    rw [h] at heq
    cases heq
  · rfl

theorem filesWithSuffixRecursive_found (suffix raw res : Str) (e : Nat)
    (metas : List FileMeta) (idxs : List Nat)
    (h : fileWithSuffix suffix raw = some (res, e)) :
    filesWithSuffixRecursive suffix raw metas idxs =
      if res.length ≠ suffix.length then
        if res.any (fun c => c ∈ packerVariableDelims) then
          filesWithSuffixRecursive suffix (raw.drop e)
            (metas ++ [newUnresolvedFileMeta res]) (idxs ++ [metas.length])
        else
          filesWithSuffixRecursive suffix (raw.drop e) (metas ++ [newFileMeta res]) idxs
      else filesWithSuffixRecursive suffix (raw.drop e) metas idxs := by
  rw [filesWithSuffixRecursive]
  split
  · rename_i res2 e2 heq
    rw [h] at heq
    cases heq
    rfl
  · rename_i heq
    rw [h] at heq
    cases heq

theorem fileWithSuffix_nil (suffix : Str) : fileWithSuffix suffix [] = Option.none := by
  rcases suffix with _ | ⟨c, t⟩
  · decide
  · rw [fileWithSuffix]
    have : firstOcc [] (c :: t) = Option.none := by
      rw [firstOcc]
      simp [List.isPrefixOf]
    rw [this]

-- ### Claims C5 and C4 (manifest builder resolution of unresolved entries)

theorem getD_append_left {α : Type} (d : α) (l₁ l₂ : List α) (j : Nat)
    (h : j < l₁.length) : (l₁ ++ l₂).getD j d = l₁.getD j d := by
  rw [List.getD_eq_getElem?_getD, List.getD_eq_getElem?_getD, List.getElem?_append,
    if_pos h]

theorem getD_append_right {α : Type} (d : α) (l₁ l₂ : List α) (j : Nat)
    (h : l₁.length ≤ j) : (l₁ ++ l₂).getD j d = l₂.getD (j - l₁.length) d := by
  rw [List.getD_eq_getElem?_getD, List.getD_eq_getElem?_getD, List.getElem?_append,
    if_neg (by omega)]

-- Specialised step equations of the scanner recursion.
theorem fwsr_step_unres (suffix raw res : Str) (e : Nat) (metas : List FileMeta)
    (idxs : List Nat) (h : fileWithSuffix suffix raw = some (res, e))
    (hne : res.length ≠ suffix.length)
    (hvar : res.any (fun c => c ∈ packerVariableDelims) = true) :
    filesWithSuffixRecursive suffix raw metas idxs =
      filesWithSuffixRecursive suffix (raw.drop e)
        (metas ++ [newUnresolvedFileMeta res]) (idxs ++ [metas.length]) := by
  rw [filesWithSuffixRecursive_found suffix raw res e metas idxs h, if_pos hne,
    if_pos hvar]

theorem fwsr_step_res (suffix raw res : Str) (e : Nat) (metas : List FileMeta)
    (idxs : List Nat) (h : fileWithSuffix suffix raw = some (res, e))
    (hne : res.length ≠ suffix.length)
    (hvar : res.any (fun c => c ∈ packerVariableDelims) = false) :
    filesWithSuffixRecursive suffix raw metas idxs =
      filesWithSuffixRecursive suffix (raw.drop e) (metas ++ [newFileMeta res]) idxs := by
  rw [filesWithSuffixRecursive_found suffix raw res e metas idxs h, if_pos hne,
    if_neg (by simp [hvar])]

theorem fwsr_step_skip (suffix raw res : Str) (e : Nat) (metas : List FileMeta)
    (idxs : List Nat) (h : fileWithSuffix suffix raw = some (res, e))
    (hne : res.length = suffix.length) :
    filesWithSuffixRecursive suffix raw metas idxs =
      filesWithSuffixRecursive suffix (raw.drop e) metas idxs := by
  rw [filesWithSuffixRecursive_found suffix raw res e metas idxs h,
    if_neg (by simp [hne])]

-- The scanner invariant: any accumulated meta whose unresolved flag is set
-- sits at an index recorded in the unresolvedIndexes accumulator.
theorem scan_unresolved_invariant (suffix : Str) :
    ∀ (n : Nat) (raw : Str), raw.length ≤ n →
      ∀ (metas : List FileMeta) (idxs : List Nat),
        (∀ j, ((metas.getD j defaultFM).unresolved = true) → j ∈ idxs) →
        ∀ j, (((filesWithSuffixRecursive suffix raw metas idxs).1.getD j defaultFM).unresolved
            = true) →
          j ∈ (filesWithSuffixRecursive suffix raw metas idxs).2 := by
  intro n
  induction n with
  | zero =>
    intro raw hlen metas idxs hP j
    have hraw : raw = [] := List.length_eq_zero.mp (Nat.le_zero.mp hlen)
    subst hraw
    rw [filesWithSuffixRecursive_stop suffix [] metas idxs (fileWithSuffix_nil suffix)]
    exact hP j
  | succ n ih =>
    intro raw hlen metas idxs hP j
    match hf : fileWithSuffix suffix raw with
    | Option.none =>
      rw [filesWithSuffixRecursive_stop suffix raw metas idxs hf]
      exact hP j
    | some (res, e) =>
      obtain ⟨he1, he2⟩ := fileWithSuffix_endIdx suffix raw res e hf
      have hlen2 : (raw.drop e).length ≤ n := by simp; omega
      by_cases hne : res.length ≠ suffix.length
      · match hvar : res.any (fun c => c ∈ packerVariableDelims) with
        | true =>
          rw [fwsr_step_unres suffix raw res e metas idxs hf hne hvar]
          refine ih (raw.drop e) hlen2 _ _ ?_ j
          intro k hk
          by_cases hklt : k < metas.length
          · rw [getD_append_left defaultFM metas _ k hklt] at hk
            exact List.mem_append_left _ (hP k hk)
          · rw [getD_append_right defaultFM metas _ k (Nat.le_of_not_lt hklt)] at hk
            by_cases hkeq : k = metas.length
            · subst hkeq
              simp
            · rw [List.getD_eq_default] at hk
              · simp [defaultFM] at hk
              · simp; omega
        | false =>
          rw [fwsr_step_res suffix raw res e metas idxs hf hne hvar]
          refine ih (raw.drop e) hlen2 _ _ ?_ j
          intro k hk
          by_cases hklt : k < metas.length
          · rw [getD_append_left defaultFM metas _ k hklt] at hk
            exact hP k hk
          · rw [getD_append_right defaultFM metas _ k (Nat.le_of_not_lt hklt)] at hk
            by_cases hkeq : k = metas.length
            · subst hkeq
              simp [newFileMeta] at hk
            · rw [List.getD_eq_default] at hk
              · simp [defaultFM] at hk
              · simp; omega
      · rw [fwsr_step_skip suffix raw res e metas idxs hf (by omega)]
        exact ih (raw.drop e) hlen2 metas idxs hP j

-- The resolution loop of newManifest rewrites every index it is handed to
-- a freshly built (hence resolved) FileMeta, or fails; therefore if every
-- unresolved entry sits at an index in the work list, a successful run
-- returns only resolved entries.
theorem resolveUnresolvedLoop_resolves (existing : Str → Option Str)
    (findFileInDir : Str → Str → Except GoError Str) (projectDirPath : Str) :
    ∀ (todo : List Nat) (results : List FileMeta),
      (∀ j, ((results.getD j defaultFM).unresolved = true) → j ∈ todo) →
      ∀ out, resolveUnresolvedLoop existing findFileInDir projectDirPath results todo
          = some (Except.ok out) →
        ∀ fm ∈ out, fm.unresolved = false := by
  intro todo
  induction todo with
  | nil =>
    intro results hP out hout fm hfm
    rw [resolveUnresolvedLoop] at hout
    simp at hout
    subst hout
    obtain ⟨k, hk, rfl⟩ := List.mem_iff_getElem.mp hfm
    by_contra hc
    have hu : (results.getD k defaultFM).unresolved = true := by
      rw [List.getD_eq_getElem results defaultFM hk]
      revert hc
      cases (results[k]).unresolved <;> simp
    exact absurd (hP k hu) (List.not_mem_nil k)
  | cons index rest ih =>
    intro results hP out hout fm hfm
    rw [resolveUnresolvedLoop] at hout
    -- step through the match chain of the loop body
    split at hout
    · cases hout
    next cur hidx =>
      have hlt : index < results.length := by
        by_contra hc
        rw [List.getElem?_eq_none (by omega)] at hidx
        cases hidx
      have hstep : ∀ fp : Str,
          resolveUnresolvedLoop existing findFileInDir projectDirPath
            (results.set index (newFileMeta fp)) rest = some (Except.ok out) →
          fm.unresolved = false := by
        intro fp hrec
        refine ih (results.set index (newFileMeta fp)) ?_ out hrec fm hfm
        intro k hk
        by_cases hkeq : k = index
        · subst hkeq
          rw [List.getD_eq_getElem _ defaultFM (by simpa using hlt)] at hk
          rw [List.getElem_set_eq (by simpa using hlt)] at hk
          simp [newFileMeta] at hk
        · have heq : (results.set index (newFileMeta fp)).getD k defaultFM
              = results.getD k defaultFM := by
            rw [List.getD_eq_getElem?_getD, List.getD_eq_getElem?_getD,
              List.getElem?_set_ne (fun h => hkeq h.symm)]
          rw [heq] at hk
          have hmem := hP k hk
          rcases List.mem_cons.mp hmem with h1 | h1
          · exact absurd h1 hkeq
          · exact h1
      split at hout
      · cases hout
      next resolution hres =>
        split at hout
        · -- unknownVarType: the loop returns an error, not ok
          cases hout
        · -- missingVar: trim, then locate, then rewrite in place
          split at hout
          · cases hout
          next dir name htrim =>
            split at hout
            · cases hout
            next filePath hff => exact hstep filePath hout
        · -- resolved: rewrite in place from the resolved string
          exact hstep resolution.str hout

-- The per-suffix loop preserves resolvedness of the accumulator.
theorem buildFoundFilesAux_no_unresolved (templateRaw : Str) (existing : Str → Option Str)
    (findFileInDir : Str → Str → Except GoError Str) (projectDirPath : Str) :
    ∀ (suffixes : List Str) (acc : List FileMeta),
      (∀ fm ∈ acc, fm.unresolved = false) →
      ∀ out, buildFoundFilesAux templateRaw existing findFileInDir projectDirPath acc
          suffixes = some (Except.ok out) →
        ∀ fm ∈ out, fm.unresolved = false := by
  intro suffixes
  induction suffixes with
  | nil =>
    intro acc hacc out hout
    rw [buildFoundFilesAux] at hout
    simp at hout
    subst hout
    exact hacc
  | cons suffix rest ih =>
    intro acc hacc out hout
    rw [buildFoundFilesAux] at hout
    split at hout
    · cases hout
    · cases hout
    next resolved hloop =>
      refine ih (acc ++ resolved) ?_ out hout
      intro fm hfm
      rcases List.mem_append.mp hfm with h1 | h1
      · exact hacc fm h1
      · have hbase : ∀ j, ((([] : List FileMeta).getD j defaultFM).unresolved = true) →
            j ∈ ([] : List Nat) := by
          intro j hj
          rw [List.getD_eq_default] at hj
          · simp [defaultFM] at hj
          · simp
        have hscan := scan_unresolved_invariant suffix templateRaw.length templateRaw
          le_rfl [] [] hbase
        exact resolveUnresolvedLoop_resolves existing findFileInDir projectDirPath
          (filesWithSuffixRecursive suffix templateRaw [] []).2
          (filesWithSuffixRecursive suffix templateRaw [] []).1
          hscan resolved hloop fm h1

/-- C5: for every configuration for which the FoundFiles computation of
newManifest succeeds, no returned FileMeta has the unresolved flag set:
every entry the scanner records as unresolved is either rewritten in place
(to a FileMeta built by newFileMeta, which is always resolved) or the
build returns an error. -/
theorem buildFoundFiles_no_unresolved_entry (includeSuffixes : List Str)
    (templateRaw : Str) (existing : Str → Option Str)
    (findFileInDir : Str → Str → Except GoError Str) (projectDirPath : Str)
    (metas : List FileMeta)
    (h : buildFoundFiles includeSuffixes templateRaw existing findFileInDir
        projectDirPath = some (Except.ok metas)) :
    ∀ fm ∈ metas, fm.unresolved = false :=
  buildFoundFilesAux_no_unresolved templateRaw existing findFileInDir projectDirPath
    includeSuffixes [] (by simp) metas h

-- Concrete template: a quoted local reference ending in the suffix.
def ksSuffix : Str := ['.', 'k', 's']
def ksTemplate : Str := ['\"', 'a', '.', 'k', 's', '\"']

theorem ksTemplate_scan :
    filesWithSuffixRecursive ksSuffix ksTemplate [] [] =
      ([newFileMeta ['a', '.', 'k', 's']], []) := by
  rw [fwsr_step_res ksSuffix ksTemplate ['a', '.', 'k', 's'] 5 [] [] (by decide)
    (by decide) (by decide)]
  rw [filesWithSuffixRecursive_stop _ _ _ _ (by decide)]
  simp

/-- Witness for buildFoundFiles_no_unresolved_entry: a concrete template
containing one quoted reference builds successfully and every returned
entry is resolved. -/
theorem buildFoundFiles_no_unresolved_entry_witness :
    buildFoundFiles [ksSuffix] ksTemplate (fun _ => Option.none)
        (fun _ _ => Except.error GoError.walkError) []
      = some (Except.ok [newFileMeta ['a', '.', 'k', 's']]) ∧
    ∀ fm ∈ [newFileMeta ['a', '.', 'k', 's']], fm.unresolved = false := by
  have heval : buildFoundFiles [ksSuffix] ksTemplate (fun _ => Option.none)
      (fun _ _ => Except.error GoError.walkError) []
      = some (Except.ok [newFileMeta ['a', '.', 'k', 's']]) := by
    rw [buildFoundFiles, buildFoundFilesAux.eq_def]
    simp only [ksTemplate_scan]
    rw [resolveUnresolvedLoop]
    simp [buildFoundFilesAux]
  refine ⟨heval, ?_⟩
  exact buildFoundFiles_no_unresolved_entry [ksSuffix] ksTemplate (fun _ => Option.none)
    (fun _ _ => Except.error GoError.walkError) [] [newFileMeta ['a', '.', 'k', 's']] heval

/-- C4: during manifest building, a scanned reference whose resolution
reports unknown-variable-type fails the build immediately with that error;
one whose resolution reports a missing variable is not fatal there: the
disk fallback locator is invoked on the trimmed name and directory hint,
and on success the entry is replaced in place with a reference built from
the located path, while a locator failure fails the build with the wrapped
lookup (file-not-found) error. -/
theorem resolveUnresolved_reference_cases (existing : Str → Option Str)
    (findFileInDir : Str → Str → Except GoError Str) (projectDirPath : Str)
    (results : List FileMeta) (index : Nat) (rest : List Nat) (fm : FileMeta)
    (hidx : results[index]? = some fm)
    (resolution : PackerResolutionResult)
    (hres : resolvePackerVariables fm.FoundAtPath existing = some resolution) :
    (resolution.result = VarRes.unknownVarType →
      resolveUnresolvedLoop existing findFileInDir projectDirPath results (index :: rest)
        = some (Except.error (resolution.err.getD GoError.ioError))) ∧
    (∀ dir name, resolution.result = VarRes.missingVar →
      trimVariableStringToFile fm.FoundAtPath = Except.ok (dir, name) →
      (∀ filePath,
        findFileInDir name (goPathJoin projectDirPath dir) = Except.ok filePath →
        resolveUnresolvedLoop existing findFileInDir projectDirPath results (index :: rest)
          = resolveUnresolvedLoop existing findFileInDir projectDirPath
              (results.set index (newFileMeta filePath)) rest) ∧
      (∀ e, findFileInDir name (goPathJoin projectDirPath dir) = Except.error e →
        resolveUnresolvedLoop existing findFileInDir projectDirPath results (index :: rest)
          = some (Except.error (GoError.failedToLookupFile e)))) := by
  refine ⟨?_, ?_⟩
  · intro hu
    rw [resolveUnresolvedLoop]
    simp only [hidx, hres, hu]
  · intro dir name hm htrim
    constructor
    · intro filePath hff
      rw [resolveUnresolvedLoop]
      simp only [hidx, hres, hm, htrim, hff]
    · intro e hff
      rw [resolveUnresolvedLoop]
      simp only [hidx, hres, hm, htrim, hff]

-- The reference of spec Example 2/3, braces spelled out: two left braces,
-- space, user, space, backtick a backtick, space, two right braces,
-- then /ks.ks.
def exampleVarRef : Str :=
  ['{', '{', ' ', 'u', 's', 'e', 'r', ' ', backtickChar, 'a', backtickChar, ' ',
   '}', '}', '/', 'k', 's', '.', 'k', 's']

def exampleVarBody : Str :=
  ['u', 's', 'e', 'r', ' ', backtickChar, 'a', backtickChar]

theorem exampleVarRef_missing :
    resolvePackerVariables exampleVarRef (fun _ => Option.none) =
      some { str := [], result := VarRes.missingVar,
             err := some (GoError.packerVariableNotExist ['a']) } := by
  rw [resolvePackerVariables, resolveLoop]
  rw [dif_pos (by decide : (0 : Nat) < exampleVarRef.length)]
  split
  · rename_i heq
    rw [List.drop_zero] at heq
    exact absurd heq (by decide)
  · rename_i raw advance body wasFound heq
    rw [List.drop_zero] at heq
    have hv : nextPackerVariable exampleVarRef =
        some (exampleVarRef.take 14, 14, exampleVarBody, true) := by decide
    rw [hv] at heq
    simp at heq
    obtain ⟨e1, e2, e3, e4⟩ := heq
    subst e1; subst e2; subst e3; subst e4
    have ht : packerVariableTypeAndName exampleVarBody =
        some (PackerVariable.user, ['a']) := by decide
    simp [ht]

/-- Witness for resolveUnresolved_reference_cases: the missing-variable
case on the spec example reference, with a locator that succeeds: the
unresolved entry is replaced in place and the loop continues. -/
theorem resolveUnresolved_reference_cases_witness :
    resolveUnresolvedLoop (fun _ => Option.none)
        (fun _ _ => Except.ok ['s', '/', 'k', 's', '.', 'k', 's']) ['p']
        [newUnresolvedFileMeta exampleVarRef] [0]
      = resolveUnresolvedLoop (fun _ => Option.none)
          (fun _ _ => Except.ok ['s', '/', 'k', 's', '.', 'k', 's']) ['p']
          ([newUnresolvedFileMeta exampleVarRef].set 0
            (newFileMeta ['s', '/', 'k', 's', '.', 'k', 's'])) [] := by
  have h := resolveUnresolved_reference_cases (fun _ => Option.none)
    (fun _ _ => Except.ok ['s', '/', 'k', 's', '.', 'k', 's']) ['p']
    [newUnresolvedFileMeta exampleVarRef] 0 [] (newUnresolvedFileMeta exampleVarRef)
    rfl _ exampleVarRef_missing
  exact (h.2 ['/'] ['k', 's', '.', 'k', 's'] rfl rfl).1
    ['s', '/', 'k', 's', '.', 'k', 's'] rfl

-- ### Claims C2 and C7 (reference scanner properties)

theorem takeIsPre {α : Type} (n : Nat) (l : List α) : l.take n <+: l :=
  ⟨l.drop n, List.take_append_drop n l⟩

-- A pattern that is a prefix of an append and fits in the first part is a
-- prefix of the first part.
theorem preOfAppend {α : Type} (pat a b : List α) (h : pat <+: a ++ b)
    (hl : pat.length ≤ a.length) : pat <+: a := by
  obtain ⟨t, ht⟩ := h
  have h2 : (a ++ b).take pat.length = pat := by
    rw [← ht]
    exact List.take_left pat t
  rw [List.take_append_eq_append_take, Nat.sub_eq_zero_of_le hl, List.take_zero,
    List.append_nil] at h2
  rw [← h2]
  exact takeIsPre pat.length a

-- An occurrence of pat inside the span of an occurrence of s is an
-- occurrence of pat within s itself.
theorem occWithin (pat s raw : Str) (i p : Nat)
    (hdrop : s <+: raw.drop i) (hocc : pat <+: raw.drop p) (hip : i ≤ p)
    (hbound : p + pat.length ≤ i + s.length) :
    pat <+: s.drop (p - i) := by
  obtain ⟨t, ht⟩ := hdrop
  have h1 : raw.drop p = s.drop (p - i) ++ t := by
    have h2 : (raw.drop i).drop (p - i) = raw.drop p := by
      rw [List.drop_drop]
      congr 1
      omega
    rw [← h2, ← ht, List.drop_append_of_le_length (by omega)]
  rw [h1] at hocc
  exact preOfAppend pat (s.drop (p - i)) t hocc (by simp; omega)

-- The slice from any start at or before the suffix occurrence start up to
-- the end of the occurrence ends in the suffix.
theorem extract_ends_with (raw suffix : Str) (i start : Nat)
    (hpre : suffix <+: raw.drop i) (hsi : start ≤ i) :
    suffix <:+ extract raw start (i + suffix.length) ∧
    suffix.length ≤ (extract raw start (i + suffix.length)).length := by
  obtain ⟨t, ht⟩ := hpre
  have h1 : extract raw start (i + suffix.length)
      = (raw.drop start).take (i - start) ++ suffix := by
    rw [extract]
    have h2 : i + suffix.length - start = (i - start) + suffix.length := by omega
    rw [h2, List.take_add]
    congr 1
    have h3 : (raw.drop start).drop (i - start) = raw.drop i := by
      rw [List.drop_drop]
      congr 1
      omega
    rw [h3, ← ht]
    exact List.take_left suffix t
  rw [h1]
  exact ⟨List.suffix_append _ _, by simp⟩

-- Every found result of fileWithSuffix ends at a suffix occurrence end.
theorem fileWithSuffix_some_e (suffix raw res : Str) (e : Nat)
    (h : fileWithSuffix suffix raw = some (res, e)) :
    ∃ i, firstOcc raw suffix = some i ∧ e = i + suffix.length := by
  rw [fileWithSuffix] at h
  split at h
  · cases h
  next i heq =>
    refine ⟨i, heq, ?_⟩
    simp only [] at h
    split at h
    · cases h
    · split at h
      · cases h
      · split at h
        next k hk =>
          split at h
          · split at h
            · simp at h; omega
            · simp at h; omega
          · simp at h; omega
        next hk => simp at h; omega

-- When the suffix does not contain the variable open marker, any found
-- result starts at or before the suffix occurrence and hence ends in the
-- suffix.
theorem fileWithSuffix_result_suffix (suffix raw res : Str) (e : Nat)
    (h : fileWithSuffix suffix raw = some (res, e))
    (hsuf : firstOcc suffix startPackerVariableBytes = Option.none) :
    suffix <:+ res ∧ suffix.length ≤ res.length := by
  rw [fileWithSuffix] at h
  split at h
  · cases h
  next i hi =>
    obtain ⟨hpre, hbound⟩ := firstOcc_some_spec suffix raw i hi
    simp only [] at h
    split at h
    · cases h
    next st hst =>
      obtain ⟨hstlt, _⟩ := lastIdxByte_some_spec _ _ st hst
      have hsti : st < i := by
        have : (raw.take i).length = min i raw.length := by simp
        omega
    -- the guard startIndex + 1 > endDelimIndex is dead
      split at h
      · cases h
      · split at h
        next k hk =>
          split at h
          · -- variable rewind branch
            split at h
            next v hv =>
              -- res starts at the found open marker position
              simp only [Option.some.injEq, Prod.mk.injEq] at h
              obtain ⟨hres, he⟩ := h
              -- name the line start used in the rewind
              set a := (match goLastIndex (raw.take (i + suffix.length)) newLineBytes with
                | some l => l
                | Option.none => 0) with ha
              obtain ⟨hvpre0, hvlen⟩ := firstOcc_some_spec _ _ v hv
              have hextract : (extract raw a (i + suffix.length)).drop v
                  = (raw.drop (a + v)).take (i + suffix.length - a - v) := by
                rw [extract, List.drop_take, List.drop_drop]
              have hvpre : startPackerVariableBytes <+: raw.drop (a + v) := by
                rw [hextract] at hvpre0
                exact hvpre0.trans (takeIsPre _ _)
              have hextlen : (extract raw a (i + suffix.length)).length
                  ≤ i + suffix.length - a := by
                simp only [extract, List.length_take, List.length_drop]
                omega
              have hL : startPackerVariableBytes.length = 2 := rfl
              have havb : a + v + startPackerVariableBytes.length
                  ≤ i + suffix.length := by omega
              have hle : a + v ≤ i := by
                by_contra hc
                have hip : i ≤ a + v := by omega
                have hocc := occWithin startPackerVariableBytes suffix raw i (a + v)
                  hpre hvpre hip havb
                exact firstOcc_ne_none_of_occ startPackerVariableBytes suffix
                  ((a + v) - i) hocc hsuf
              subst hres he
              exact extract_ends_with raw suffix i (a + v) hpre hle
            next hv =>
              simp only [Option.some.injEq, Prod.mk.injEq] at h
              obtain ⟨hres, he⟩ := h
              subst hres he
              exact extract_ends_with raw suffix i st hpre (by omega)
          · simp only [Option.some.injEq, Prod.mk.injEq] at h
            obtain ⟨hres, he⟩ := h
            subst hres he
            exact extract_ends_with raw suffix i (st + 1) hpre (by omega)
        next hk =>
          simp only [Option.some.injEq, Prod.mk.injEq] at h
          obtain ⟨hres, he⟩ := h
          subst hres he
          exact extract_ends_with raw suffix i (st + 1) hpre (by omega)

-- Termination characterization of one scanner step.
theorem fileWithSuffix_none_iff (suffix raw : Str) :
    fileWithSuffix suffix raw = Option.none ↔
      firstOcc raw suffix = Option.none ∨
      ∃ i, firstOcc raw suffix = some i ∧
        lastIdxByte (raw.take i) (chooseDelim raw (i + suffix.length))
          = Option.none := by
  constructor
  · intro h
    rw [fileWithSuffix] at h
    split at h
    next hno => exact Or.inl hno
    next i hi =>
      simp only [] at h
      split at h
      next hlast => exact Or.inr ⟨i, hi, hlast⟩
      next st hst =>
        obtain ⟨hstlt, _⟩ := lastIdxByte_some_spec _ _ st hst
        obtain ⟨_, hbound⟩ := firstOcc_some_spec suffix raw i hi
        have hsti : st < i := by
          have : (raw.take i).length = min i raw.length := by simp
          omega
        split at h
        next hcond => omega
        next hcond =>
          split at h
          next k hk =>
            split at h
            · split at h <;> cases h
            · cases h
          next hk => cases h
  · intro hor
    rcases hor with hno | ⟨i, hi, hlast⟩
    · rw [fileWithSuffix, hno]
    · rw [fileWithSuffix]
      simp only [hi, hlast]

/-- C2 as amended: after each match the scan resumes at the end of that
match (the returned end index is the suffix occurrence start plus the
suffix length, and the recursion continues on the bytes dropped to that
index); the scan terminates exactly when fileWithSuffix reports no match,
which happens when either no occurrence of the suffix remains in the
remaining bytes, or the earliest remaining occurrence has no preceding
delimiter byte (in which case later occurrences are abandoned). -/
theorem scan_resume_and_termination (suffix raw : Str) (metas : List FileMeta)
    (idxs : List Nat) :
    (∀ res e, fileWithSuffix suffix raw = some (res, e) →
      (∃ i, firstOcc raw suffix = some i ∧ e = i + suffix.length) ∧
      ∃ metas2 idxs2, filesWithSuffixRecursive suffix raw metas idxs =
          filesWithSuffixRecursive suffix (raw.drop e) metas2 idxs2) ∧
    (fileWithSuffix suffix raw = Option.none →
      filesWithSuffixRecursive suffix raw metas idxs = (metas, idxs)) ∧
    (fileWithSuffix suffix raw = Option.none ↔
      firstOcc raw suffix = Option.none ∨
      ∃ i, firstOcc raw suffix = some i ∧
        lastIdxByte (raw.take i) (chooseDelim raw (i + suffix.length))
          = Option.none) := by
  refine ⟨?_, ?_, fileWithSuffix_none_iff suffix raw⟩
  · intro res e h
    refine ⟨fileWithSuffix_some_e suffix raw res e h, ?_⟩
    by_cases hne : res.length ≠ suffix.length
    · match hvar : res.any (fun c => c ∈ packerVariableDelims) with
      | true => exact ⟨_, _, fwsr_step_unres suffix raw res e metas idxs h hne hvar⟩
      | false => exact ⟨_, _, fwsr_step_res suffix raw res e metas idxs h hne hvar⟩
    · exact ⟨metas, idxs, fwsr_step_skip suffix raw res e metas idxs h (by omega)⟩
  · intro h
    exact filesWithSuffixRecursive_stop suffix raw metas idxs h

/-- Witness for scan_resume_and_termination: one concrete found match with
its resumption point. -/
theorem scan_resume_and_termination_witness :
    (∃ i, firstOcc ksTemplate ksSuffix = some i ∧ 5 = i + ksSuffix.length) ∧
    ∃ metas2 idxs2, filesWithSuffixRecursive ksSuffix ksTemplate [] [] =
        filesWithSuffixRecursive ksSuffix (ksTemplate.drop 5) metas2 idxs2 :=
  (scan_resume_and_termination ksSuffix ksTemplate [] []).1
    ['a', '.', 'k', 's'] 5 (by decide)

def isoSuffix : Str := ['i', 's', 'o']
def isoTemplate : Str :=
  ['i', 's', 'o', ' ', '\"', 'a', '.', 'i', 's', 'o', '\"']

/-- C2 counterexample: on template bytes iso-space-quote-a.iso-quote with
suffix iso, the very first scanner step finds the suffix occurrence at
index 0, rejects it for want of a preceding delimiter and returns
not-found, so the recursion terminates having yielded nothing, although
suffix occurrences remain in the remaining bytes (one of them properly
quoted); this falsifies the claim that the scan terminates only when no
further occurrence of the suffix exists. -/
theorem scan_terminates_with_occurrence_remaining :
    filesWithSuffixRecursive isoSuffix isoTemplate [] [] = ([], []) ∧
    fileWithSuffix isoSuffix isoTemplate = Option.none ∧
    firstOcc isoTemplate isoSuffix = some 0 ∧
    firstOcc (isoTemplate.drop 3) isoSuffix = some 4 := by
  refine ⟨?_, by decide, by decide, by decide⟩
  exact filesWithSuffixRecursive_stop _ _ _ _ (by decide)

-- The per-step suffix property propagated through the recursion.
theorem scan_yields_aux (suffix : Str)
    (hsuf : firstOcc suffix startPackerVariableBytes = Option.none) :
    ∀ (n : Nat) (raw : Str), raw.length ≤ n →
      ∀ (metas : List FileMeta) (idxs : List Nat),
        (∀ fm ∈ metas,
          suffix <:+ fm.FoundAtPath ∧ suffix.length < fm.FoundAtPath.length) →
        ∀ fm ∈ (filesWithSuffixRecursive suffix raw metas idxs).1,
          suffix <:+ fm.FoundAtPath ∧ suffix.length < fm.FoundAtPath.length := by
  intro n
  induction n with
  | zero =>
    intro raw hlen metas idxs hacc fm
    have hraw : raw = [] := List.length_eq_zero.mp (Nat.le_zero.mp hlen)
    subst hraw
    rw [filesWithSuffixRecursive_stop suffix [] metas idxs (fileWithSuffix_nil suffix)]
    exact hacc fm
  | succ n ih =>
    intro raw hlen metas idxs hacc fm
    match hf : fileWithSuffix suffix raw with
    | Option.none =>
      rw [filesWithSuffixRecursive_stop suffix raw metas idxs hf]
      exact hacc fm
    | some (res, e) =>
      obtain ⟨he1, he2⟩ := fileWithSuffix_endIdx suffix raw res e hf
      obtain ⟨hsfx, hslen⟩ := fileWithSuffix_result_suffix suffix raw res e hf hsuf
      have hlen2 : (raw.drop e).length ≤ n := by simp; omega
      by_cases hne : res.length ≠ suffix.length
      · have hstrict : suffix.length < res.length := by omega
        match hvar : res.any (fun c => c ∈ packerVariableDelims) with
        | true =>
          rw [fwsr_step_unres suffix raw res e metas idxs hf hne hvar]
          refine ih (raw.drop e) hlen2 _ _ ?_ fm
          intro fmx hfmx
          rcases List.mem_append.mp hfmx with h1 | h1
          · exact hacc fmx h1
          · simp at h1
            subst h1
            exact ⟨hsfx, hstrict⟩
        | false =>
          rw [fwsr_step_res suffix raw res e metas idxs hf hne hvar]
          refine ih (raw.drop e) hlen2 _ _ ?_ fm
          intro fmx hfmx
          rcases List.mem_append.mp hfmx with h1 | h1
          · exact hacc fmx h1
          · simp at h1
            subst h1
            exact ⟨hsfx, hstrict⟩
      · rw [fwsr_step_skip suffix raw res e metas idxs hf (by omega)]
        exact ih (raw.drop e) hlen2 metas idxs hacc fm

/-- C7 as amended: for every suffix that does not itself contain the
variable open marker (two left braces) and every byte buffer, every
substring the scanner yields ends exactly in the suffix and is strictly
longer than the suffix; a match equal to the suffix alone is discarded.
(When the suffix contains the open marker, the variable rewind can move
the match start past the suffix occurrence start, see the
counterexample.) -/
theorem scan_yields_end_in_suffix (suffix raw : Str)
    (hsuf : firstOcc suffix startPackerVariableBytes = Option.none) :
    ∀ fm ∈ (filesWithSuffixRecursive suffix raw [] []).1,
      suffix <:+ fm.FoundAtPath ∧ suffix.length < fm.FoundAtPath.length :=
  scan_yields_aux suffix hsuf raw.length raw le_rfl [] [] (by simp)

/-- Witness for scan_yields_end_in_suffix on a concrete template whose
scan yields one entry. -/
theorem scan_yields_end_in_suffix_witness :
    firstOcc ksSuffix startPackerVariableBytes = Option.none ∧
    ∀ fm ∈ (filesWithSuffixRecursive ksSuffix ksTemplate [] []).1,
      ksSuffix <:+ fm.FoundAtPath ∧ ksSuffix.length < fm.FoundAtPath.length :=
  ⟨by decide, scan_yields_end_in_suffix ksSuffix ksTemplate (by decide)⟩

def braceSuffix : Str := ['b', '{', '{', 'c']
def braceTemplate : Str := ['\"', 'a', '}', '}', 'b', '{', '{', 'c']

/-- C7 counterexample: with a suffix containing the variable open marker,
the rewind inside fileWithSuffix moves the match start to the marker
position inside the suffix occurrence: the scan on
quote-a-closebrace-closebrace-b-openbrace-openbrace-c with suffix
b-openbrace-openbrace-c yields the 3-byte substring
openbrace-openbrace-c, which does not end in the 4-byte suffix and is not
longer than it, falsifying the claim as stated for arbitrary suffixes. -/
theorem scan_yields_non_suffix_match :
    fileWithSuffix braceSuffix braceTemplate = some (['{', '{', 'c'], 8) ∧
    filesWithSuffixRecursive braceSuffix braceTemplate [] [] =
      ([newUnresolvedFileMeta ['{', '{', 'c']], [0]) ∧
    ¬ braceSuffix <:+ (['{', '{', 'c'] : Str) ∧
    ¬ braceSuffix.length < (['{', '{', 'c'] : Str).length := by
  refine ⟨by decide, ?_, ?_, by decide⟩
  · rw [fwsr_step_unres braceSuffix braceTemplate ['{', '{', 'c'] 8 [] [] (by decide)
      (by decide) (by decide)]
    rw [filesWithSuffixRecursive_stop _ _ _ _ (by decide)]
    simp
  · intro hc
    have := hc.length_le
    simp [braceSuffix] at this

-- ### Claim C8 (classification and content addressing)

theorem beBytes_length (k : Nat) : ∀ n, (beBytes k n).length = k := by
  induction k with
  | zero => intro n; simp [beBytes]
  | succ k ih => intro n; simp [beBytes, ih]

theorem compressRound_length (st : List Nat) (kt wt : Nat) (h : st.length = 8) :
    (compressRound st kt wt).length = 8 := by
  rcases st with _ | ⟨a, _ | ⟨b, _ | ⟨c, _ | ⟨d, _ | ⟨e, _ | ⟨f, _ | ⟨g, _ | ⟨h8, _ | ⟨i, t⟩⟩⟩⟩⟩⟩⟩⟩⟩ <;>
    simp_all [compressRound]

theorem foldl_compressRound_length (f g : Nat → Nat) :
    ∀ (l : List Nat) (st : List Nat), st.length = 8 →
      (l.foldl (fun s t => compressRound s (f t) (g t)) st).length = 8 := by
  intro l
  induction l with
  | nil => intro st h; simpa using h
  | cons x xs ih =>
    intro st h
    simp only [List.foldl_cons]
    exact ih _ (compressRound_length st (f x) (g x) h)

theorem compressBlock_length (H block : List Nat) (h : H.length = 8) :
    (compressBlock H block).length = 8 := by
  have h2 : (List.foldl
      (fun st t => compressRound st (shaK.getD t 0)
        ((scheduleFrom (wordsOfBytes block) 48).getD t 0)) H (List.range 64)).length = 8 :=
    foldl_compressRound_length _ _ (List.range 64) H h
  simp only [compressBlock, List.length_zipWith]
  rw [h, h2]
  simp

theorem foldl_compressBlock_length (blocks : List (List Nat)) :
    ∀ H : List Nat, H.length = 8 → (blocks.foldl compressBlock H).length = 8 := by
  induction blocks with
  | nil => intro H h; simpa using h
  | cons b bs ih =>
    intro H h
    simp only [List.foldl_cons]
    exact ih _ (compressBlock_length H b h)

theorem flatten_map_beBytes_length (L : List Nat) :
    ((L.map (beBytes 4)).flatten).length = 4 * L.length := by
  induction L with
  | nil => simp
  | cons x xs ih => simp [ih, beBytes_length]; ring

theorem sha256_length (msg : List Nat) : (sha256 msg).length = 32 := by
  rw [sha256]
  rw [flatten_map_beBytes_length]
  rw [foldl_compressBlock_length _ shaH0 (by simp [shaH0])]

theorem hexOfBytes_length (bs : List Nat) : (hexOfBytes bs).length = 2 * bs.length := by
  induction bs with
  | nil => simp [hexOfBytes]
  | cons b t ih => simp [hexOfBytes, hexByte] at ih ⊢; omega

theorem hexByte_mem (b : Nat) : ∀ c ∈ hexByte b, c ∈ hexDigitChars := by
  intro c hc
  have hlen : hexDigitChars.length = 16 := rfl
  have h1 : b / 16 % 16 < hexDigitChars.length := by rw [hlen]; omega
  have h2 : b % 16 < hexDigitChars.length := by rw [hlen]; omega
  simp only [hexByte, List.mem_cons, List.not_mem_nil, or_false] at hc
  rcases hc with h | h <;> subst h
  · rw [List.getD_eq_getElem _ _ h1]; exact List.getElem_mem h1
  · rw [List.getD_eq_getElem _ _ h2]; exact List.getElem_mem h2

theorem hexOfBytes_mem (bs : List Nat) : ∀ c ∈ hexOfBytes bs, c ∈ hexDigitChars := by
  intro c hc
  rw [hexOfBytes] at hc
  rw [List.mem_flatten] at hc
  obtain ⟨l, hl, hcl⟩ := hc
  rw [List.mem_map] at hl
  obtain ⟨b, _, rfl⟩ := hl
  exact hexByte_mem b c hcl

-- An https-prefixed string never passes the http prefix test: the bytes at
-- index 4 differ (colon versus the letter s).
theorem https_not_http (p : Str) (h : goHasPre httpsFilePre p = true) :
    goHasPre httpFilePre p = false := by
  have hs : httpsFilePre <+: p := List.isPrefixOf_iff_prefix.mp h
  by_contra hc
  have hb : goHasPre httpFilePre p = true := by
    revert hc; cases goHasPre httpFilePre p <;> simp
  have hh : httpFilePre <+: p := List.isPrefixOf_iff_prefix.mp hb
  have a1 := hh.getElem (show 4 < httpFilePre.length by decide)
  have a2 := hs.getElem (show 4 < httpsFilePre.length by decide)
  have a3 := a1.trans a2.symm
  simp [httpFilePre, httpsFilePre] at a3

/-- C8: newFileMeta classifies a finalized reference by prefix (http
prefix to HttpHost, https prefix to HttpsHost, otherwise LocalStorage) and
stores as StoredAtPath the lowercase hex SHA-256 digest of the bytes of
FoundAtPath (which is the input path itself); the digest is 64 lowercase
hex characters and is deterministic: equal paths hash to equal
identifiers. -/
theorem newFileMeta_classification_and_hash (filePath : Str) :
    (goHasPre httpFilePre filePath = true →
      (newFileMeta filePath).Source = FileSource.HttpHost) ∧
    (goHasPre httpsFilePre filePath = true →
      (newFileMeta filePath).Source = FileSource.HttpsHost) ∧
    (goHasPre httpFilePre filePath = false → goHasPre httpsFilePre filePath = false →
      (newFileMeta filePath).Source = FileSource.LocalStorage) ∧
    (newFileMeta filePath).FoundAtPath = filePath ∧
    (newFileMeta filePath).StoredAtPath = hexOfBytes (sha256 (utf8Encode filePath)) ∧
    (newFileMeta filePath).StoredAtPath.length = 64 ∧
    (∀ c ∈ (newFileMeta filePath).StoredAtPath, c ∈ hexDigitChars) ∧
    (∀ other : Str, other = filePath →
      (newFileMeta other).StoredAtPath = (newFileMeta filePath).StoredAtPath) := by
  refine ⟨?_, ?_, ?_, rfl, rfl, ?_, ?_, ?_⟩
  · intro h; simp [newFileMeta, h]
  · intro h; simp [newFileMeta, h, https_not_http filePath h]
  · intro h1 h2; simp [newFileMeta, h1, h2]
  · show (hashBytes (utf8Encode filePath)).length = 64
    rw [hashBytes, hexOfBytes_length, sha256_length]
  · show ∀ c ∈ hashBytes (utf8Encode filePath), c ∈ hexDigitChars
    rw [hashBytes]
    exact hexOfBytes_mem _
  · intro other h; rw [h]

/-- Witness for newFileMeta_classification_and_hash: concrete paths
exercising each prefix class. -/
theorem newFileMeta_classification_and_hash_witness :
    (newFileMeta (httpFilePre ++ ['a'])).Source = FileSource.HttpHost ∧
    (newFileMeta (httpsFilePre ++ ['a'])).Source = FileSource.HttpsHost ∧
    (newFileMeta ['a']).Source = FileSource.LocalStorage :=
  ⟨(newFileMeta_classification_and_hash (httpFilePre ++ ['a'])).1 (by decide),
   (newFileMeta_classification_and_hash (httpsFilePre ++ ['a'])).2.1 (by decide),
   (newFileMeta_classification_and_hash ['a']).2.2.1 (by decide) (by decide)⟩

-- ### Claim C9 (resolver panic)

-- The reference string of the claim, braces spelled out:
-- left-brace left-brace space u s e r space backtick a space
-- right-brace right-brace.
def panicExampleBody : Str := ['u', 's', 'e', 'r', ' ', backtickChar, 'a']

def panicExampleRef : Str :=
  ['{', '{', ' ', 'u', 's', 'e', 'r', ' ', backtickChar, 'a', ' ', '}', '}']

/-- C9: variable resolution is not total. For the variable body consisting
of the word user, a space, a single backtick and the letter a, the first
backtick index plus one (6) exceeds the last backtick index (5), so
packerVariableTypeAndName evaluates the slice body[6:5] and panics; the
panic propagates out of resolvePackerVariables on the corresponding
reference string for every variable mapping. -/
theorem resolvePackerVariables_panics :
    packerVariableTypeAndName panicExampleBody = Option.none ∧
    ∀ existing : Str → Option Str,
      resolvePackerVariables panicExampleRef existing = Option.none := by
  constructor
  · decide
  · intro existing
    have h1 : nextPackerVariable panicExampleRef =
        some (panicExampleRef, 13, panicExampleBody, true) := by decide
    have h2 : packerVariableTypeAndName panicExampleBody = Option.none := by decide
    have h3 : (0 : Nat) < panicExampleRef.length := by decide
    rw [resolvePackerVariables, resolveLoop]
    rw [dif_pos h3]
    split
    · rfl
    · rename_i raw advance body wasFound hn
      simp only [List.drop_zero] at hn
      rw [h1] at hn
      simp at hn
      obtain ⟨e1, e2, e3, e4⟩ := hn
      subst e1; subst e2; subst e3; subst e4
      simp [h2]

-- ### Claim C6 (variable resolution with all variables present)

-- Unfold lemmas for goReplaceAll.
theorem goReplaceAll_no_occ (s pat val : Str) (hp : pat ≠ [])
    (h : firstOcc s pat = Option.none) : goReplaceAll s pat val = s := by
  rw [goReplaceAll, dif_neg hp]
  split
  · rfl
  next i heq => rw [h] at heq; cases heq

theorem goReplaceAll_step (s pat val : Str) (hp : pat ≠ []) (i : Nat)
    (h : firstOcc s pat = some i) :
    goReplaceAll s pat val
      = s.take i ++ val ++ goReplaceAll (s.drop (i + pat.length)) pat val := by
  rw [goReplaceAll, dif_neg hp]
  split
  next heq => rw [h] at heq; cases heq
  next j heq =>
    rw [h] at heq
    cases heq
    rfl

-- The head of a pattern occurring anywhere is a member of the text.
theorem firstOcc_none_of_head (s pat : Str) (c : Char) (hp : pat.head? = some c)
    (hc : c ∉ s) : firstOcc s pat = Option.none := by
  match h : firstOcc s pat with
  | Option.none => rfl
  | some i =>
    obtain ⟨hpre, _⟩ := firstOcc_some_spec pat s i h
    obtain ⟨t, ht⟩ := hpre
    match pat, hp with
    | _ :: pt, rfl =>
      have hcm : c ∈ s.drop i := by
        rw [← ht]
        exact List.mem_cons_self c _
      exact absurd (List.mem_of_mem_drop hcm) hc

theorem not_pre_of_head (pat x : Str) (c : Char) (hp : pat.head? = some c)
    (hx : x.head? ≠ some c) : ¬ pat <+: x := by
  intro hpre
  obtain ⟨t, ht⟩ := hpre
  match pat, hp with
  | _ :: pt, rfl => exact hx (by rw [← ht]; rfl)

theorem firstOcc_cons_of_ne (c d : Char) (pt t : Str) (hcd : d ≠ c) :
    firstOcc (c :: t) (d :: pt) = (firstOcc t (d :: pt)).map (· + 1) := by
  rw [firstOcc]
  have hnp : (d :: pt).isPrefixOf (c :: t) = false := by
    simp [List.isPrefixOf]
    intro h
    exact absurd h hcd
  rw [if_neg (by simp [hnp])]

theorem firstOcc_cons_self (c : Char) (pt t : Str) (hpt : pt.isPrefixOf t = true) :
    firstOcc (c :: t) (c :: pt) = some 0 := by
  rw [firstOcc]
  rw [if_pos (by simp [List.isPrefixOf, hpt])]

-- ### The well-formed-template grammar for C6

def userCoreOf (name : Str) : Str :=
  'u' :: 's' :: 'e' :: 'r' :: ' ' :: backtickChar :: (name ++ [backtickChar])

def specialCoreOf (name : Str) : Str := '.' :: name

def braceFree (l : Str) : Prop := '{' ∉ l ∧ '}' ∉ l

instance braceFreeDecidable (l : Str) : Decidable (braceFree l) :=
  inferInstanceAs (Decidable ('{' ∉ l ∧ '}' ∉ l))

def spanOf (b : Str) : Str := '{' :: '{' :: (b ++ ['}', '}'])

def flattenSpans (seg0 : Str) : List (Str × Str) → Str
  | [] => seg0
  | (b, seg) :: rest => seg0 ++ spanOf b ++ flattenSpans seg rest

def notSpaceEdge (l : Str) : Prop :=
  (∀ c, l.head? = some c → isSpaceChar c = false) ∧
  (∀ c, l.getLast? = some c → isSpaceChar c = false)

def wfCoreName (core name : Str) : Prop :=
  (core = userCoreOf name ∧ backtickChar ∉ name ∧ braceFree name) ∨
  (core = specialCoreOf name ∧ braceFree name ∧ name ≠ [] ∧ notSpaceEdge name)

def wfShape (b core : Str) : Prop := b = core ∨ b = ' ' :: (core ++ [' '])

def wfBodyNamed (existing : Str → Option Str) (b : Str) : Prop :=
  ∃ core name, wfCoreName core name ∧ wfShape b core ∧ ∃ v, existing name = some v

def valuesBraceFree (existing : Str → Option Str) : Prop :=
  ∀ name v, existing name = some v → braceFree v

-- The formalisation of the claim hypothesis: the template decomposes into
-- brace-free segments alternating with well-formed variable spans, each of
-- which names a variable present in the mapping.
def wfTemplate (existing : Str → Option Str) (seg0 : Str)
    (items : List (Str × Str)) : Prop :=
  braceFree seg0 ∧ ∀ p ∈ items, wfBodyNamed existing p.1 ∧ braceFree p.2

-- ### Trim and parse lemmas on well-formed cores

theorem dropWhile_eq_self_of_head (p : Char → Bool) (l : Str)
    (h : ∀ c, l.head? = some c → p c = false) : l.dropWhile p = l := by
  cases l with
  | nil => rfl
  | cons c t =>
    rw [List.dropWhile_cons]
    simp [h c rfl]

theorem trim_eq_self (core : Str) (h : notSpaceEdge core) : goTrimSpace core = core := by
  obtain ⟨hh, hl⟩ := h
  rw [goTrimSpace]
  rw [dropWhile_eq_self_of_head _ _ hh]
  rw [dropWhile_eq_self_of_head _ _ (by intro c hc; apply hl; rwa [List.head?_reverse] at hc)]
  simp

theorem trim_spaced (core : Str) (hne : core ≠ []) (h : notSpaceEdge core) :
    goTrimSpace (' ' :: (core ++ [' '])) = core := by
  obtain ⟨hh, hl⟩ := h
  rw [goTrimSpace]
  rw [List.dropWhile_cons]
  rw [if_pos (by decide)]
  have h1 : (core ++ [' ']).dropWhile isSpaceChar = core ++ [' '] := by
    apply dropWhile_eq_self_of_head
    intro c hc
    apply hh
    cases core with
    | nil => exact absurd rfl hne
    | cons x t => simpa using hc
  rw [h1]
  have h2 : (core ++ [' ']).reverse = ' ' :: core.reverse := by simp
  rw [h2, List.dropWhile_cons, if_pos (by decide)]
  rw [dropWhile_eq_self_of_head _ _
    (by intro c hc; apply hl; rwa [List.head?_reverse] at hc)]
  simp

theorem userCoreOf_append (name : Str) :
    userCoreOf name = (['u', 's', 'e', 'r', ' ', backtickChar] ++ name) ++ [backtickChar] := by
  simp [userCoreOf]

theorem userCore_edges (name : Str) : notSpaceEdge (userCoreOf name) := by
  constructor
  · intro c hc
    rw [userCoreOf] at hc
    simp at hc
    subst hc
    decide
  · intro c hc
    rw [userCoreOf_append, List.getLast?_concat] at hc
    simp at hc
    subst hc
    decide

theorem specialCore_edges (name : Str) (hne : name ≠ []) (h : notSpaceEdge name) :
    notSpaceEdge (specialCoreOf name) := by
  obtain ⟨hh, hl⟩ := h
  constructor
  · intro c hc
    rw [specialCoreOf] at hc
    simp at hc
    subst hc
    decide
  · intro c hc
    rw [specialCoreOf, List.getLast?_cons] at hc
    cases hx : name.getLast? with
    | none => exact absurd (List.getLast?_eq_none_iff.mp hx) hne
    | some d =>
      rw [hx] at hc
      simp at hc
      subst hc
      exact hl _ hx

-- goLastIndex step lemmas for computing the last backtick position.
theorem goLastIndex_cons_of_some (c : Char) (t pat : Str) (j : Nat)
    (h : goLastIndex t pat = some j) : goLastIndex (c :: t) pat = some (j + 1) := by
  rw [goLastIndex, h]

theorem goLastIndex_append_single (name : Str) (c : Char) (hc : c ∉ name) :
    goLastIndex (name ++ [c]) [c] = some name.length := by
  induction name with
  | nil =>
    have h0 : goLastIndex ([] : Str) [c] = Option.none := by
      rw [goLastIndex]
      simp
    rw [List.nil_append, goLastIndex, h0]
    simp
  | cons d t ih =>
    have hct : c ∉ t := fun hm => hc (List.mem_cons_of_mem d hm)
    rw [List.cons_append]
    rw [goLastIndex_cons_of_some d _ _ _ (ih hct)]
    simp

theorem firstOcc_userCore (name : Str) :
    firstOcc (userCoreOf name) [backtickChar] = some 5 := by
  rw [userCoreOf]
  rw [firstOcc_cons_of_ne _ _ _ _ (by decide)]
  rw [firstOcc_cons_of_ne _ _ _ _ (by decide)]
  rw [firstOcc_cons_of_ne _ _ _ _ (by decide)]
  rw [firstOcc_cons_of_ne _ _ _ _ (by decide)]
  rw [firstOcc_cons_of_ne _ _ _ _ (by decide)]
  rw [firstOcc_cons_self _ _ _ (by simp [List.isPrefixOf])]
  rfl

theorem goLastIndex_userCore (name : Str) (hbt : backtickChar ∉ name) :
    goLastIndex (userCoreOf name) [backtickChar] = some (name.length + 5 + 1) := by
  rw [userCoreOf]
  have h0 := goLastIndex_append_single name backtickChar hbt
  rw [goLastIndex_cons_of_some _ _ _ _
    (goLastIndex_cons_of_some _ _ _ _
      (goLastIndex_cons_of_some _ _ _ _
        (goLastIndex_cons_of_some _ _ _ _
          (goLastIndex_cons_of_some _ _ _ _
            (goLastIndex_cons_of_some _ _ _ _ h0)))))]
  all_goals simp only [Option.some.injEq]
  all_goals omega

theorem goSlice_userCore (name : Str) :
    goSlice (userCoreOf name) (5 + 1) (name.length + 5 + 1) = some name := by
  rw [goSlice, if_pos (by constructor <;> simp [userCoreOf] <;> omega)]
  rw [extract]
  have hdrop : (userCoreOf name).drop 6 = name ++ [backtickChar] := by
    simp [userCoreOf]
  rw [hdrop]
  have harith : name.length + 5 + 1 - (5 + 1) = name.length := by omega
  rw [harith, List.take_left]

theorem parse_user (name : Str) (hbt : backtickChar ∉ name) :
    packerVariableTypeAndName (userCoreOf name) = some (PackerVariable.user, name) := by
  have hpre : goHasPre userTypeName (userCoreOf name) = true := by
    simp [goHasPre, userCoreOf, userTypeName, List.isPrefixOf]
  rw [packerVariableTypeAndName, if_pos hpre]
  simp only [firstOcc_userCore name, goLastIndex_userCore name hbt,
    goSlice_userCore name]

theorem parse_special (name : Str) :
    packerVariableTypeAndName (specialCoreOf name) = some (PackerVariable.special, name) := by
  have hpre : goHasPre userTypeName (specialCoreOf name) = false := by
    simp [goHasPre, specialCoreOf, userTypeName, List.isPrefixOf]
  rw [packerVariableTypeAndName, if_neg (by simp [hpre])]
  rw [if_pos (by simp [goHasPre, specialCoreOf, List.isPrefixOf])]
  rw [specialCoreOf]
  simp

-- Parsing a well-formed core yields a non-none variable type and the name.
theorem parse_wfCore (core name : Str) (h : wfCoreName core name) :
    ∃ vt, packerVariableTypeAndName core = some (vt, name) ∧ vt ≠ PackerVariable.none := by
  rcases h with ⟨hcore, hbt, _⟩ | ⟨hcore, _, _, _⟩
  · subst hcore
    exact ⟨PackerVariable.user, parse_user name hbt, by decide⟩
  · subst hcore
    exact ⟨PackerVariable.special, parse_special name, by decide⟩

-- A well-formed core has non-space edges (needed for TrimSpace).
theorem wfCore_edges (core name : Str) (h : wfCoreName core name) :
    notSpaceEdge core ∧ core ≠ [] := by
  rcases h with ⟨hcore, _, _⟩ | ⟨hcore, _, hne, hedge⟩
  · subst hcore
    exact ⟨userCore_edges name, by simp [userCoreOf]⟩
  · subst hcore
    exact ⟨specialCore_edges name hne hedge, by simp [specialCoreOf]⟩

-- ### Occurrence shifting and goReplaceAll structure

theorem getElemQ_append_left {α : Type} (a b : List α) (j : Nat) (h : j < a.length) :
    (a ++ b)[j]? = a[j]? := by
  rw [List.getElem?_append, if_pos h]

theorem getElemQ_append_right {α : Type} (a b : List α) (j : Nat) (h : a.length ≤ j) :
    (a ++ b)[j]? = b[j - a.length]? := by
  rw [List.getElem?_append, if_neg (by omega)]

theorem firstOcc_of_pre (x pat : Str) (h : pat <+: x) : firstOcc x pat = some 0 := by
  match x with
  | [] => rw [firstOcc, if_pos (List.isPrefixOf_iff_prefix.mpr h)]
  | c :: t => rw [firstOcc, if_pos (List.isPrefixOf_iff_prefix.mpr h)]

theorem not_pre_of_second (pat x : Str) (d : Char) (hp : pat[1]? = some d)
    (hx : x[1]? ≠ some d) : ¬ pat <+: x := by
  intro h
  have h1 : 1 < pat.length := by
    by_contra hc
    rw [List.getElem?_eq_none (by omega)] at hp
    cases hp
  have he := h.getElem h1
  apply hx
  rw [List.getElem?_eq_getElem (Nat.lt_of_lt_of_le h1 h.length_le)]
  rw [← he]
  rw [List.getElem?_eq_getElem h1] at hp
  simpa using hp

theorem firstOcc_append_shift (pat : Str) (hne : pat ≠ []) :
    ∀ (a l : Str), (∀ j, j < a.length → ¬ pat <+: (a ++ l).drop j) →
      firstOcc (a ++ l) pat = (firstOcc l pat).map (· + a.length) := by
  intro a
  induction a with
  | nil =>
    intro l _
    simp only [List.nil_append, List.length_nil]
    cases firstOcc l pat <;> simp
  | cons c a ih =>
    intro l hnot
    rw [List.cons_append, firstOcc]
    have hnp : ¬ pat.isPrefixOf (c :: (a ++ l)) = true := by
      intro hcon
      exact hnot 0 (by simp) (by simpa using List.isPrefixOf_iff_prefix.mp hcon)
    rw [if_neg hnp]
    have hrec := ih l (fun j hj hp => hnot (j + 1) (by simp; omega) (by simpa using hp))
    show (firstOcc (a ++ l) pat).map (· + 1) = _
    rw [hrec]
    cases firstOcc l pat <;> simp <;> omega

theorem no_occ_head_in (pat : Str) (c : Char) (hp : pat.head? = some c) (a l : Str)
    (hc : c ∉ a) : ∀ j, j < a.length → ¬ pat <+: (a ++ l).drop j := by
  intro j hj hpre
  have hda : (a ++ l).drop j = a.drop j ++ l := List.drop_append_of_le_length (le_of_lt hj)
  rw [hda, List.drop_eq_getElem_cons hj] at hpre
  obtain ⟨t, ht⟩ := hpre
  match pat, hp with
  | _ :: pt, rfl =>
    have hcj : c = a[j] := by
      have hhead := congrArg List.head? ht
      simp only [List.cons_append, List.head?_cons] at hhead
      exact Option.some.inj hhead
    exact hc (hcj ▸ List.getElem_mem hj)

theorem goReplaceAll_append (pat v : Str) (hp : pat ≠ []) (a l : Str)
    (hnot : ∀ j, j < a.length → ¬ pat <+: (a ++ l).drop j) :
    goReplaceAll (a ++ l) pat v = a ++ goReplaceAll l pat v := by
  have hshift := firstOcc_append_shift pat hp a l hnot
  match hocc : firstOcc l pat with
  | Option.none =>
    rw [goReplaceAll_no_occ _ _ _ hp (by rw [hshift, hocc]; rfl)]
    rw [goReplaceAll_no_occ _ _ _ hp hocc]
  | some j =>
    obtain ⟨_, hfit⟩ := firstOcc_some_spec pat l j hocc
    rw [goReplaceAll_step _ _ _ hp (j + a.length) (by rw [hshift, hocc]; rfl)]
    rw [goReplaceAll_step _ _ _ hp j hocc]
    have h1 : (a ++ l).take (j + a.length) = a ++ l.take j := by
      rw [List.take_append_eq_append_take]
      rw [List.take_of_length_le (by omega)]
      congr 2
      omega
    have h2 : (a ++ l).drop (j + a.length + pat.length) = l.drop (j + pat.length) := by
      rw [List.drop_append_eq_append_drop]
      rw [List.drop_eq_nil_of_le (by omega)]
      rw [List.nil_append]
      congr 1
      omega
    rw [h1, h2]
    simp

-- ### Structure of spans under replacement

theorem spanOf_assoc (b l : Str) : spanOf b ++ l = '{' :: '{' :: (b ++ ['}', '}'] ++ l) := by
  simp [spanOf]

theorem braceFree_append (a b : Str) (ha : braceFree a) (hb : braceFree b) :
    braceFree (a ++ b) := by
  obtain ⟨h1, h2⟩ := ha
  obtain ⟨h3, h4⟩ := hb
  constructor <;> simp_all

theorem pre_cancel (c x y : Str) (h : c ++ x <+: c ++ y) : x <+: y := by
  obtain ⟨t, ht⟩ := h
  rw [List.append_assoc] at ht
  exact ⟨t, List.append_cancel_left ht⟩

-- A span of one well-formed body is never a prefix of the span of a
-- different body followed by anything.
theorem span_ne_not_pre (b b2 l : Str) (hb : braceFree b) (hb2 : braceFree b2)
    (hne : b2 ≠ b) : ¬ spanOf b2 <+: spanOf b ++ l := by
  intro h
  have h2 : b2 ++ ['}', '}'] <+: (b ++ ['}', '}']) ++ l := by
    refine pre_cancel ['{', '{'] _ _ ?_
    have e1 : ['{', '{'] ++ (b2 ++ ['}', '}']) = spanOf b2 := by simp [spanOf]
    have e2 : ['{', '{'] ++ ((b ++ ['}', '}']) ++ l) = spanOf b ++ l := by simp [spanOf]
    rw [e1, e2]
    exact h
  obtain ⟨t, ht⟩ := h2
  rcases Nat.lt_trichotomy b2.length b.length with hlt | heq | hgt
  · have hq := congrArg (fun z => z[b2.length]?) ht
    simp only at hq
    rw [List.append_assoc, getElemQ_append_right b2 _ _ (le_refl _)] at hq
    rw [List.append_assoc, getElemQ_append_left b _ _ hlt] at hq
    simp at hq
    rw [List.getElem?_eq_getElem hlt] at hq
    have hsome := Option.some.inj hq
    have hmem := List.getElem_mem hlt
    rw [← hsome] at hmem
    exact hb.2 hmem
  · have htk := congrArg (fun z => z.take (b2.length + 2)) ht
    simp only at htk
    rw [List.take_left' (by simp)] at htk
    rw [List.take_left' (by simp; omega)] at htk
    have hbb := List.append_cancel_right htk
    exact hne hbb
  · have hq := congrArg (fun z => z[b.length]?) ht
    simp only at hq
    rw [List.append_assoc, getElemQ_append_left b2 _ _ hgt] at hq
    rw [List.append_assoc, getElemQ_append_right b _ _ (le_refl _)] at hq
    simp at hq
    rw [List.getElem?_eq_getElem hgt] at hq
    have hsome := Option.some.inj hq
    have hmem := List.getElem_mem hgt
    rw [hsome] at hmem
    exact hb2.2 hmem

theorem wfCore_braceFree (core name : Str) (h : wfCoreName core name) :
    braceFree core := by
  rcases h with ⟨hcore, _, hn1, hn2⟩ | ⟨hcore, hbf, _, _⟩
  · subst hcore
    constructor <;> simp [userCoreOf, backtickChar] <;> simp_all [braceFree]
  · subst hcore
    constructor <;> simp [specialCoreOf] <;> simp_all [braceFree]

theorem wfBody_braceFree (existing : Str → Option Str) (b : Str)
    (h : wfBodyNamed existing b) : braceFree b := by
  obtain ⟨core, name, hcn, hsh, _⟩ := h
  have hcf := wfCore_braceFree core name hcn
  rcases hsh with rfl | rfl
  · exact hcf
  · constructor <;> simp [braceFree] at hcf ⊢ <;> simp_all

-- No occurrence of the span of b2 starts inside the segment-plus-span
-- prefix when b differs from b2.
theorem no_occ_in_seg_span (seg b b2 l : Str) (hseg : braceFree seg)
    (hb : braceFree b) (hb2 : braceFree b2) (hne : b2 ≠ b) :
    ∀ j, j < (seg ++ spanOf b).length →
      ¬ spanOf b2 <+: ((seg ++ spanOf b) ++ l).drop j := by
  intro j hj hpre
  rw [List.append_assoc] at hpre
  have hjlen : j < seg.length + (b.length + 4) := by
    simpa [spanOf] using hj
  by_cases hj1 : j < seg.length
  · refine not_pre_of_head (spanOf b2) _ '{' rfl ?_ hpre
    rw [List.head?_drop, getElemQ_append_left _ _ _ hj1, List.getElem?_eq_getElem hj1]
    intro hcon
    have hs := Option.some.inj hcon
    have hm := List.getElem_mem hj1
    rw [hs] at hm
    exact hseg.1 hm
  · by_cases hj2 : j = seg.length
    · subst hj2
      rw [List.drop_left] at hpre
      exact span_ne_not_pre b b2 l hb hb2 hne hpre
    · have hk1 : 1 ≤ j - seg.length := by omega
      have hkspan : j - seg.length < b.length + 4 := by omega
      have hsplit : spanOf b ++ l = ['{', '{'] ++ (b ++ (['}', '}'] ++ l)) := by
        simp [spanOf]
      have hlen2 : (['{', '{'] : Str).length = 2 := rfl
      by_cases hkone : j - seg.length = 1
      · refine not_pre_of_second (spanOf b2) _ '{' (by simp [spanOf]) ?_ hpre
        rw [List.getElem?_drop]
        rw [getElemQ_append_right _ _ _ (by omega)]
        have hJ : j + 1 - seg.length = 2 := by omega
        rw [hJ, hsplit]
        rw [getElemQ_append_right _ _ _ (by rw [hlen2])]
        rw [hlen2]
        show (b ++ (['}', '}'] ++ l))[0]? ≠ some '{'
        cases b with
        | nil =>
          intro hcon
          simp at hcon
        | cons c0 bt =>
          rw [List.cons_append, List.getElem?_cons_zero]
          intro hcon
          have hs := Option.some.inj hcon
          exact hb.1 (by rw [← hs]; exact List.mem_cons_self c0 bt)
      · refine not_pre_of_head (spanOf b2) _ '{' rfl ?_ hpre
        rw [List.head?_drop]
        rw [getElemQ_append_right _ _ _ (by omega)]
        rw [hsplit]
        rw [getElemQ_append_right _ _ _ (by rw [hlen2]; omega)]
        rw [hlen2]
        by_cases hkb : j - seg.length - 2 < b.length
        · rw [getElemQ_append_left _ _ _ hkb, List.getElem?_eq_getElem hkb]
          intro hcon
          have hs := Option.some.inj hcon
          have hm := List.getElem_mem hkb
          rw [hs] at hm
          exact hb.1 hm
        · rw [getElemQ_append_right _ _ _ (by omega)]
          have h01 : j - seg.length - 2 - b.length = 0 ∨
              j - seg.length - 2 - b.length = 1 := by omega
          rcases h01 with h0 | h0 <;> rw [h0] <;> intro hcon <;> simp at hcon

theorem flattenSpans_prepend (x s : Str) (L : List (Str × Str)) :
    flattenSpans (x ++ s) L = x ++ flattenSpans s L := by
  cases L with
  | nil => rfl
  | cons p rest =>
    obtain ⟨b, seg⟩ := p
    simp [flattenSpans]

-- The invariant of the resolution loop: the working string decomposes into
-- brace-free segments alternating with spans whose bodies satisfy B and
-- are well formed.
def SpanDecomp (existing : Str → Option Str) (B : Str → Prop) (R : Str) : Prop :=
  ∃ seg0 L, R = flattenSpans seg0 L ∧ braceFree seg0 ∧
    ∀ p ∈ L, B p.1 ∧ wfBodyNamed existing p.1 ∧ braceFree p.2

theorem SpanDecomp_mono (existing : Str → Option Str) (B B2 : Str → Prop) (R : Str)
    (himp : ∀ x, B x → B2 x) (h : SpanDecomp existing B R) :
    SpanDecomp existing B2 R := by
  obtain ⟨seg0, L, hR, hseg, hL⟩ := h
  exact ⟨seg0, L, hR, hseg, fun p hp =>
    ⟨himp p.1 (hL p hp).1, (hL p hp).2.1, (hL p hp).2.2⟩⟩

theorem SpanDecomp_false_braceFree (existing : Str → Option Str) (R : Str)
    (h : SpanDecomp existing (fun _ => False) R) : braceFree R := by
  obtain ⟨seg0, L, hR, hseg, hL⟩ := h
  cases L with
  | nil => rw [hR]; exact hseg
  | cons p rest => exact absurd (hL p (by simp)).1 id

-- Replacing all occurrences of a well-formed span rewrites exactly the
-- matching spans of the decomposition and leaves the rest intact.
theorem replaceAll_flatten (existing : Str → Option Str) (b2 v : Str)
    (hb2wf : wfBodyNamed existing b2) (hv : braceFree v) :
    ∀ (L : List (Str × Str)) (seg0 : Str) (B : Str → Prop),
      braceFree seg0 →
      (∀ p ∈ L, B p.1 ∧ wfBodyNamed existing p.1 ∧ braceFree p.2) →
      SpanDecomp existing (fun x => B x ∧ x ≠ b2)
        (goReplaceAll (flattenSpans seg0 L) (spanOf b2) v) := by
  have hb2f : braceFree b2 := wfBody_braceFree existing b2 hb2wf
  intro L
  induction L with
  | nil =>
    intro seg0 B hseg _
    rw [flattenSpans]
    rw [goReplaceAll_no_occ _ _ _ (by simp [spanOf])
      (firstOcc_none_of_head seg0 (spanOf b2) '{' rfl hseg.1)]
    exact ⟨seg0, [], rfl, hseg, by simp⟩
  | cons p rest ih =>
    obtain ⟨b, seg⟩ := p
    intro seg0 B hseg hall
    obtain ⟨hB, hwfb, hsegb⟩ := hall (b, seg) (by simp)
    have hbf : braceFree b := wfBody_braceFree existing b hwfb
    rw [flattenSpans]
    by_cases hbe : b = b2
    · subst hbe
      have hocc : firstOcc (seg0 ++ (spanOf b ++ flattenSpans seg rest)) (spanOf b)
          = some (0 + seg0.length) := by
        rw [firstOcc_append_shift (spanOf b) (by simp [spanOf]) seg0 _
          (no_occ_head_in (spanOf b) '{' rfl seg0 _ hseg.1)]
        rw [firstOcc_of_pre _ _ ⟨_, rfl⟩]
        rfl
      rw [List.append_assoc]
      rw [goReplaceAll_step _ _ _ (by simp [spanOf]) _ hocc]
      have htake : (seg0 ++ (spanOf b ++ flattenSpans seg rest)).take (0 + seg0.length)
          = seg0 := by
        rw [Nat.zero_add]
        exact List.take_left seg0 _
      have hdrop : (seg0 ++ (spanOf b ++ flattenSpans seg rest)).drop
          (0 + seg0.length + (spanOf b).length) = flattenSpans seg rest := by
        rw [Nat.zero_add]
        rw [← List.append_assoc]
        rw [show seg0.length + (spanOf b).length = (seg0 ++ spanOf b).length by simp]
        exact List.drop_left _ _
      rw [htake, hdrop]
      obtain ⟨s0', L', hR', hs0', hL'⟩ :=
        ih seg B hsegb (fun q hq => hall q (List.mem_cons_of_mem _ hq))
      refine ⟨seg0 ++ (v ++ s0'), L', ?_, ?_, hL'⟩
      · rw [hR', flattenSpans_prepend seg0 (v ++ s0'), flattenSpans_prepend v s0']
        simp
      · exact braceFree_append _ _ hseg (braceFree_append _ _ hv hs0')
    · rw [goReplaceAll_append (spanOf b2) v (by simp [spanOf]) (seg0 ++ spanOf b) _
        (no_occ_in_seg_span seg0 b b2 _ hseg hbf hb2f (fun he => hbe he.symm))]
      obtain ⟨s0', L', hR', hs0', hL'⟩ :=
        ih seg B hsegb (fun q hq => hall q (List.mem_cons_of_mem _ hq))
      refine ⟨seg0, (b, s0') :: L', ?_, hseg, ?_⟩
      · rw [hR']
        simp [flattenSpans]
      · intro q hq
        rcases List.mem_cons.mp hq with h1 | h1
        · subst h1
          exact ⟨⟨hB, hbe⟩, hwfb, hs0'⟩
        · exact hL' q h1

-- The body of a well-formed span is brace-free.
theorem wfShape_braceFree (b core name : Str) (hcn : wfCoreName core name)
    (hsh : wfShape b core) : braceFree b := by
  have hcf := wfCore_braceFree core name hcn
  rcases hsh with rfl | rfl
  · exact hcf
  · constructor <;> simp [braceFree] at hcf ⊢ <;> simp_all

theorem trim_trailing (core : Str) (hne : core ≠ []) (h : notSpaceEdge core) :
    goTrimSpace (core ++ [' ']) = core := by
  obtain ⟨hh, hl⟩ := h
  rw [goTrimSpace]
  have h1 : (core ++ [' ']).dropWhile isSpaceChar = core ++ [' '] := by
    apply dropWhile_eq_self_of_head
    intro c hc
    apply hh
    cases core with
    | nil => exact absurd rfl hne
    | cons x t => simpa using hc
  rw [h1]
  have h2 : (core ++ [' ']).reverse = ' ' :: core.reverse := by simp
  rw [h2, List.dropWhile_cons, if_pos (by decide)]
  rw [dropWhile_eq_self_of_head _ _
    (by intro c hc; apply hl; rwa [List.head?_reverse] at hc)]
  simp

-- nextPackerVariable on a brace-free segment followed by a well-formed
-- span: it finds exactly that span.
theorem nextVar_on_flatten (seg b tail core name : Str) (hseg : braceFree seg)
    (hcn : wfCoreName core name) (hsh : wfShape b core) :
    nextPackerVariable (seg ++ spanOf b ++ tail)
      = some (spanOf b, seg.length + (b.length + 4), core, true) := by
  have hbf : braceFree b := wfShape_braceFree b core name hcn hsh
  obtain ⟨hedge, hcne⟩ := wfCore_edges core name hcn
  have hs2 : startPackerVariableBytes.length = 2 := rfl
  have he2 : endPackerVariableBytes.length = 2 := rfl
  have hstr2 : seg ++ spanOf b ++ tail = seg ++ (spanOf b ++ tail) := by simp
  have hsplitA : seg ++ spanOf b ++ tail
      = (seg ++ ('{' :: '{' :: b)) ++ ('}' :: '}' :: tail) := by simp [spanOf]
  have hsplitB : seg ++ spanOf b ++ tail
      = (seg ++ ['{', '{']) ++ (b ++ ('}' :: '}' :: tail)) := by simp [spanOf]
  have hlen : (seg ++ spanOf b ++ tail).length
      = seg.length + b.length + 4 + tail.length := by
    simp only [List.length_append, spanOf, List.length_cons, List.length_nil]
    omega
  have hdropSeg2 : (seg ++ spanOf b ++ tail).drop (seg.length + 2)
      = b ++ ('}' :: '}' :: tail) := by
    rw [hsplitB, show seg.length + 2 = (seg ++ ['{', '{']).length by simp]
    exact List.drop_left _ _
  have h1 : firstOcc (seg ++ spanOf b ++ tail) startPackerVariableBytes
      = some seg.length := by
    rw [hstr2]
    rw [firstOcc_append_shift startPackerVariableBytes (by decide) seg _
      (no_occ_head_in startPackerVariableBytes '{' rfl seg _ hseg.1)]
    rw [firstOcc_of_pre _ _ ⟨b ++ ['}', '}'] ++ tail, by simp [spanOf, startPackerVariableBytes]⟩]
    simp
  have hnoA : '}' ∉ seg ++ ('{' :: '{' :: b) := by
    intro hmem
    rcases List.mem_append.mp hmem with h | h
    · exact hseg.2 h
    · rcases List.mem_cons.mp h with he | h2
      · exact absurd he (by decide)
      · rcases List.mem_cons.mp h2 with he | h3
        · exact absurd he (by decide)
        · exact hbf.2 h3
  have hlenA : (seg ++ ('{' :: '{' :: b)).length = seg.length + (b.length + 2) := by
    simp only [List.length_append, List.length_cons]
  have h2 : firstOcc (seg ++ spanOf b ++ tail) endPackerVariableBytes
      = some (seg.length + (b.length + 2)) := by
    rw [hsplitA]
    rw [firstOcc_append_shift endPackerVariableBytes (by decide) _ _
      (no_occ_head_in endPackerVariableBytes '}' rfl _ _ hnoA)]
    rw [firstOcc_of_pre ('}' :: '}' :: tail) endPackerVariableBytes ⟨tail, rfl⟩]
    simp [hlenA]
  have h3 : goSlice (seg ++ spanOf b ++ tail) seg.length
      (seg.length + (b.length + 2) + endPackerVariableBytes.length)
      = some (spanOf b) := by
    rw [goSlice, if_pos (by rw [he2, hlen]; omega)]
    rw [extract]
    have hdropSeg : (seg ++ spanOf b ++ tail).drop seg.length = spanOf b ++ tail := by
      rw [hstr2]
      exact List.drop_left _ _
    rw [hdropSeg]
    have hspl : (spanOf b).length = b.length + 4 := by
      simp only [spanOf, List.length_cons, List.length_append, List.length_nil]
    have harith : seg.length + (b.length + 2) + endPackerVariableBytes.length
        - seg.length = (spanOf b).length := by
      rw [hspl]
      omega
    rw [harith, List.take_left]
  rcases hsh with rfl | rfl
  · -- bare body: the loop breaks at once on the first core character
    obtain ⟨c0, rest, hcore, hc0s, hc0b⟩ :
        ∃ c0 rest, b = c0 :: rest ∧ ¬ c0 = ' ' ∧ ¬ c0 = '}' := by
      cases hx : b with
      | nil => exact absurd hx hcne
      | cons x t =>
        refine ⟨x, t, rfl, ?_, ?_⟩
        · intro hsp
          have hhd := hedge.1 x (by rw [hx]; rfl)
          rw [hsp] at hhd
          exact absurd hhd (by decide)
        · intro hbr
          have hm : x ∈ b := by rw [hx]; exact List.mem_cons_self _ _
          rw [hbr] at hm
          exact hbf.2 hm
    have hfuel : (seg ++ spanOf b ++ tail).length
        - (seg.length + startPackerVariableBytes.length)
        = (b.length + 1 + tail.length) + 1 := by
      omega
    have hchar : (seg ++ spanOf b ++ tail)[0 + (seg.length
        + startPackerVariableBytes.length)]? = some c0 := by
      rw [show 0 + (seg.length + startPackerVariableBytes.length) = seg.length + 2
        from by omega]
      rw [show (seg ++ spanOf b ++ tail)[seg.length + 2]?
          = ((seg ++ spanOf b ++ tail).drop (seg.length + 2)).head?
        from (List.head?_drop _ _).symm]
      rw [hdropSeg2, hcore]
      rfl
    have hskip : skipLoop (seg ++ spanOf b ++ tail) 0
        (seg.length + startPackerVariableBytes.length)
        ((seg ++ spanOf b ++ tail).length
          - (seg.length + startPackerVariableBytes.length))
        = some (Sum.inr (seg.length + startPackerVariableBytes.length)) := by
      rw [hfuel]
      simp only [skipLoop, hchar]
      rw [if_neg hc0s, if_neg hc0b]
    have h5 : goSlice (seg ++ spanOf b ++ tail)
        (seg.length + startPackerVariableBytes.length)
        (seg.length + (b.length + 2)) = some b := by
      rw [goSlice, if_pos (by constructor <;> omega)]
      rw [extract]
      rw [show seg.length + startPackerVariableBytes.length = seg.length + 2
        from by omega]
      rw [hdropSeg2]
      have harith : seg.length + (b.length + 2) - (seg.length + 2)
          = b.length := by omega
      rw [harith, List.take_left]
    simp only [nextPackerVariable, h1, h2, h3, hskip, h5, trim_eq_self b hedge]
    have hadv : seg.length + (b.length + 2) + endPackerVariableBytes.length
        = seg.length + (b.length + 4) := by omega
    rw [hadv]
  · -- spaced body: the loop skips the leading space, then breaks on the
    -- second core character
    have hb2 : ((' ' :: (core ++ [' '])) : Str).length = core.length + 2 := by
      simp
    obtain ⟨c0, c1, rest, hcore, hc1s, hc1b⟩ :
        ∃ c0 c1 rest, core = c0 :: c1 :: rest ∧ ¬ c1 = ' ' ∧ ¬ c1 = '}' := by
      rcases hcn with ⟨hc, _, _⟩ | ⟨hc, hbfn, hnn, hen⟩
      · exact ⟨'u', 's', 'e' :: 'r' :: ' ' :: backtickChar :: (name ++ [backtickChar]),
          by rw [hc, userCoreOf], by decide, by decide⟩
      · cases hx : name with
        | nil => exact absurd hx hnn
        | cons n0 nt =>
          refine ⟨'.', n0, nt, ?_, ?_, ?_⟩
          · rw [hc, specialCoreOf, hx]
          · intro hsp
            have hhd := hen.1 n0 (by rw [hx]; rfl)
            rw [hsp] at hhd
            exact absurd hhd (by decide)
          · intro hbr
            have hm : n0 ∈ name := by rw [hx]; exact List.mem_cons_self _ _
            rw [hbr] at hm
            exact hbfn.2 hm
    have hfuel : (seg ++ spanOf (' ' :: (core ++ [' '])) ++ tail).length
        - (seg.length + startPackerVariableBytes.length)
        = ((core.length + 2 + tail.length) + 1) + 1 := by
      omega
    have hchar1 : (seg ++ spanOf (' ' :: (core ++ [' '])) ++ tail)[0 + (seg.length
        + startPackerVariableBytes.length)]? = some ' ' := by
      rw [show 0 + (seg.length + startPackerVariableBytes.length) = seg.length + 2
        from by omega]
      rw [show (seg ++ spanOf (' ' :: (core ++ [' '])) ++ tail)[seg.length + 2]?
          = ((seg ++ spanOf (' ' :: (core ++ [' '])) ++ tail).drop
              (seg.length + 2)).head?
        from (List.head?_drop _ _).symm]
      rw [hdropSeg2]
      rfl
    have hchar2 : (seg ++ spanOf (' ' :: (core ++ [' '])) ++ tail)[0 + 1
        + (seg.length + startPackerVariableBytes.length + 1)]? = some c1 := by
      rw [show 0 + 1 + (seg.length + startPackerVariableBytes.length + 1)
          = seg.length + 2 + 2 from by omega]
      rw [← List.getElem?_drop]
      rw [hdropSeg2, hcore]
      simp
    have hskip : skipLoop (seg ++ spanOf (' ' :: (core ++ [' '])) ++ tail) 0
        (seg.length + startPackerVariableBytes.length)
        ((seg ++ spanOf (' ' :: (core ++ [' '])) ++ tail).length
          - (seg.length + startPackerVariableBytes.length))
        = some (Sum.inr (seg.length + startPackerVariableBytes.length + 1)) := by
      rw [hfuel]
      simp only [skipLoop, hchar1, hchar2]
      rw [if_neg hc1s, if_neg hc1b]
      simp
    have h5 : goSlice (seg ++ spanOf (' ' :: (core ++ [' '])) ++ tail)
        (seg.length + startPackerVariableBytes.length + 1)
        (seg.length + (((' ' :: (core ++ [' '])) : Str).length + 2))
        = some (core ++ [' ']) := by
      rw [goSlice, if_pos (by constructor <;> omega)]
      rw [extract]
      have hd3 : (seg ++ spanOf (' ' :: (core ++ [' '])) ++ tail).drop
          (seg.length + startPackerVariableBytes.length + 1)
          = (core ++ [' ']) ++ ('}' :: '}' :: tail) := by
        rw [show seg.length + startPackerVariableBytes.length + 1
            = seg.length + 2 + 1 from by omega]
        rw [← List.drop_drop, hdropSeg2]
        rfl
      rw [hd3]
      have hc1l : ((core ++ [' ']) : Str).length = core.length + 1 := by simp
      have harith : seg.length + (((' ' :: (core ++ [' '])) : Str).length + 2)
          - (seg.length + startPackerVariableBytes.length + 1)
          = ((core ++ [' ']) : Str).length := by omega
      rw [harith, List.take_left]
    simp only [nextPackerVariable, h1, h2, h3, hskip, h5,
      trim_trailing core hcne hedge]
    have hadv : seg.length + (((' ' :: (core ++ [' '])) : Str).length + 2)
        + endPackerVariableBytes.length
        = seg.length + (((' ' :: (core ++ [' '])) : Str).length + 4) := by omega
    rw [hadv]

-- The resolution loop on a well-formed flattened template: it terminates
-- with result resolved, and the accumulated string (described by the span
-- decomposition invariant) ends brace-free once every span body has had
-- its turn.
theorem resolveLoop_flatten (existing : Str → Option Str)
    (hvals : valuesBraceFree existing) (str : Str) :
    ∀ (L : List (Str × Str)) (seg : Str) (i : Nat) (R : Str) (B : Str → Prop),
      str.drop i = flattenSpans seg L →
      braceFree seg →
      (∀ p ∈ L, wfBodyNamed existing p.1 ∧ braceFree p.2) →
      SpanDecomp existing (fun x => B x ∧ ∃ p ∈ L, p.1 = x) R →
      ∃ out, resolveLoop str existing i R = some out ∧
        out.result = VarRes.resolved ∧ braceFree out.str := by
  intro L
  induction L with
  | nil =>
    intro seg i R B hdrop hseg _ hsd
    have hdrop0 : str.drop i = seg := hdrop
    have hRbf : braceFree R := by
      refine SpanDecomp_false_braceFree existing R
        (SpanDecomp_mono existing _ _ R ?_ hsd)
      rintro x ⟨_, p, hp, _⟩
      exact absurd hp (List.not_mem_nil p)
    refine ⟨{ str := R, result := VarRes.resolved }, ?_, rfl, hRbf⟩
    rw [resolveLoop]
    by_cases hlt : i < str.length
    · rw [dif_pos hlt]
      have hocc : firstOcc (str.drop i) startPackerVariableBytes = Option.none :=
        firstOcc_none_of_head _ _ '{' rfl (by rw [hdrop0]; exact hseg.1)
      have hnext : nextPackerVariable (str.drop i)
          = some ([], (str.drop i).length, [], false) := by
        rw [nextPackerVariable, hocc]
      split
      · rename_i heq
        rw [hnext] at heq
        simp at heq
      · rename_i raw advance body wasFound heq
        rw [hnext] at heq
        simp only [Option.some.injEq, Prod.mk.injEq] at heq
        obtain ⟨e1, e2, e3, e4⟩ := heq
        subst e1; subst e2; subst e3; subst e4
        rw [dif_neg (by simp)]
    · rw [dif_neg hlt]
  | cons p rest ih =>
    obtain ⟨b, seg1⟩ := p
    intro seg i R B hdrop hseg hall hsd
    obtain ⟨hwfb, hseg1⟩ := hall (b, seg1) (by simp)
    obtain ⟨core, name, hcn, hsh, v, hv⟩ := hwfb
    have hwfb2 : wfBodyNamed existing b := ⟨core, name, hcn, hsh, v, hv⟩
    have hvbf : braceFree v := hvals name v hv
    have hflat : flattenSpans seg ((b, seg1) :: rest)
        = (seg ++ spanOf b) ++ flattenSpans seg1 rest := by
      rw [flattenSpans]
    have hlsp : ((seg ++ spanOf b) : Str).length = seg.length + (b.length + 4) := by
      simp only [List.length_append, spanOf, List.length_cons, List.length_nil]
    have hlt : i < str.length := by
      by_contra hcon
      have hd : str.drop i = [] := List.drop_eq_nil_of_le (by omega)
      rw [hdrop, hflat] at hd
      have hdl := congrArg List.length hd
      rw [List.length_append, hlsp] at hdl
      simp at hdl
    have hnext : nextPackerVariable (str.drop i)
        = some (spanOf b, seg.length + (b.length + 4), core, true) := by
      rw [hdrop, hflat]
      exact nextVar_on_flatten seg b _ core name hseg hcn hsh
    have hsd2 : SpanDecomp existing (fun x => B x ∧ ∃ p ∈ rest, p.1 = x)
        (goReplaceAll R (spanOf b) v) := by
      obtain ⟨s0, L0, hR0, hs0, hL0⟩ := hsd
      have hrf := replaceAll_flatten existing b v hwfb2 hvbf L0 s0
        (fun x => B x ∧ ∃ p ∈ (b, seg1) :: rest, p.1 = x) hs0 hL0
      rw [← hR0] at hrf
      refine SpanDecomp_mono existing _ _ _ ?_ hrf
      rintro x ⟨⟨hBx, p, hp, hpx⟩, hxb⟩
      rcases List.mem_cons.mp hp with h1 | h1
      · subst h1
        exact absurd hpx.symm hxb
      · exact ⟨hBx, p, h1, hpx⟩
    have hdrop2 : str.drop (i + (seg.length + (b.length + 4)))
        = flattenSpans seg1 rest := by
      rw [← List.drop_drop, hdrop]
      rw [hflat, ← hlsp]
      exact List.drop_left _ _
    obtain ⟨out, hout, hres, hobf⟩ := ih seg1 (i + (seg.length + (b.length + 4)))
      (goReplaceAll R (spanOf b) v) B hdrop2 hseg1
      (fun q hq => hall q (List.mem_cons_of_mem _ hq)) hsd2
    refine ⟨out, ?_, hres, hobf⟩
    rw [resolveLoop, dif_pos hlt]
    obtain ⟨vt, hpt, hvtne⟩ := parse_wfCore core name hcn
    split
    · rename_i heq
      rw [hnext] at heq
      simp at heq
    · rename_i raw advance body wasFound heq
      rw [hnext] at heq
      simp only [Option.some.injEq, Prod.mk.injEq] at heq
      obtain ⟨e1, e2, e3, e4⟩ := heq
      subst e1; subst e2; subst e3; subst e4
      rw [dif_pos rfl]
      split
      · rename_i heq2
        rw [hpt] at heq2
        simp at heq2
      · rename_i varType name2 heq2
        rw [hpt] at heq2
        simp only [Option.some.injEq, Prod.mk.injEq] at heq2
        obtain ⟨f1, f2⟩ := heq2
        subst f1; subst f2
        rw [if_neg hvtne]
        rw [hv]
        exact hout

-- Concrete instances for C6.

def cex6Str : Str := spanOf ['.', 'a']

def cex6Map : Str → Option Str :=
  fun n => if n = ['a'] then some cex6Str else Option.none

def w6items : List (Str × Str) := [(['.', 'a'], ['y'])]

def w6map : Str → Option Str :=
  fun n => if n = ['a'] then some ['v'] else Option.none

/-- C6 as amended: for every template that decomposes into brace-free
segments alternating with well-formed variable spans, each naming a
variable present in the mapping, and whose mapped values are themselves
free of the brace characters, resolution succeeds (no panic), reports
resolved, and the resulting string contains no occurrence of the two-brace
open marker nor of the two-brace close marker, hence zero remaining
variable spans; each substitution step rewrites every occurrence of the
raw span with the mapped value (replaceAll_flatten). -/
theorem resolvePackerVariables_all_present (existing : Str → Option Str)
    (seg0 : Str) (items : List (Str × Str))
    (hwf : wfTemplate existing seg0 items) (hvals : valuesBraceFree existing) :
    ∃ out, resolvePackerVariables (flattenSpans seg0 items) existing = some out ∧
      out.result = VarRes.resolved ∧
      firstOcc out.str startPackerVariableBytes = Option.none ∧
      firstOcc out.str endPackerVariableBytes = Option.none := by
  obtain ⟨hseg0, hitems⟩ := hwf
  have hsd : SpanDecomp existing
      (fun x => True ∧ ∃ p ∈ items, p.1 = x) (flattenSpans seg0 items) :=
    ⟨seg0, items, rfl, hseg0, fun p hp =>
      ⟨⟨trivial, p, hp, rfl⟩, (hitems p hp).1, (hitems p hp).2⟩⟩
  obtain ⟨out, hout, hres, hbf⟩ := resolveLoop_flatten existing hvals
    (flattenSpans seg0 items) items seg0 0 (flattenSpans seg0 items)
    (fun _ => True) (by rw [List.drop_zero]) hseg0 hitems hsd
  refine ⟨out, hout, hres, ?_, ?_⟩
  · exact firstOcc_none_of_head _ _ '{' rfl hbf.1
  · exact firstOcc_none_of_head _ _ '}' rfl hbf.2

/-- C6 counterexample: the template consisting of the single span with
body .a, every span of which names the variable a present in the mapping,
resolves successfully, but the mapped value of a is itself the raw span
text, so the resulting string still contains a full two-brace variable
span (open marker at index 0, close marker at index 4); this falsifies
the unconditional claim that resolution with all variables present leaves
zero remaining spans. -/
theorem resolvePackerVariables_value_reintroduces_span :
    wfTemplate cex6Map [] [(['.', 'a'], [])] ∧
    flattenSpans [] [(['.', 'a'], [])] = cex6Str ∧
    ∃ out, resolvePackerVariables cex6Str cex6Map = some out ∧
      out.result = VarRes.resolved ∧ out.str = cex6Str ∧
      firstOcc out.str startPackerVariableBytes = some 0 ∧
      firstOcc out.str endPackerVariableBytes = some 4 := by
  have hedge : notSpaceEdge ['a'] := by
    constructor
    · intro c hc
      simp at hc
      subst hc
      decide
    · intro c hc
      simp at hc
      subst hc
      decide
  refine ⟨⟨by decide, ?_⟩, by decide, ?_⟩
  · intro p hp
    simp only [List.mem_singleton] at hp
    subst hp
    exact ⟨⟨['.', 'a'], ['a'], Or.inr ⟨rfl, by decide, by decide, hedge⟩,
      Or.inl rfl, cex6Str, by decide⟩, by decide⟩
  · have hra : goReplaceAll cex6Str cex6Str cex6Str = cex6Str := by
      rw [goReplaceAll_step _ _ _ (by decide) 0 (by decide)]
      rw [goReplaceAll_no_occ _ _ _ (by decide) (by decide)]
      decide
    have h1 : nextPackerVariable cex6Str = some (cex6Str, 6, ['.', 'a'], true) := by
      decide
    have h2 : packerVariableTypeAndName ['.', 'a']
        = some (PackerVariable.special, ['a']) := by decide
    refine ⟨{ str := cex6Str, result := VarRes.resolved }, ?_, rfl, rfl, by decide, by decide⟩
    rw [resolvePackerVariables, resolveLoop, dif_pos (by decide)]
    split
    · rename_i heq
      simp only [List.drop_zero] at heq
      rw [h1] at heq
      simp at heq
    · rename_i raw advance body wasFound heq
      simp only [List.drop_zero] at heq
      rw [h1] at heq
      simp only [Option.some.injEq, Prod.mk.injEq] at heq
      obtain ⟨e1, e2, e3, e4⟩ := heq
      subst e1; subst e2; subst e3; subst e4
      rw [dif_pos rfl]
      split
      · rename_i heq2
        rw [h2] at heq2
        simp at heq2
      · rename_i varType name2 heq2
        rw [h2] at heq2
        simp only [Option.some.injEq, Prod.mk.injEq] at heq2
        obtain ⟨f1, f2⟩ := heq2
        subst f1; subst f2
        rw [if_neg (by decide)]
        have hm : cex6Map ['a'] = some cex6Str := by decide
        rw [hm]
        show resolveLoop cex6Str cex6Map (0 + 6) (goReplaceAll cex6Str cex6Str cex6Str)
          = some { str := cex6Str, result := VarRes.resolved }
        rw [hra, resolveLoop, dif_neg (by decide)]

/-- Witness for the amended C6 theorem: the concrete template
x-open-open-.a-close-close-y with mapping a maps-to v satisfies the
well-formedness and brace-free-values hypotheses, and resolution yields a
resolved, span-free result. -/
theorem resolvePackerVariables_all_present_witness :
    wfTemplate w6map ['x'] w6items ∧ valuesBraceFree w6map ∧
    ∃ out, resolvePackerVariables (flattenSpans ['x'] w6items) w6map = some out ∧
      out.result = VarRes.resolved ∧
      firstOcc out.str startPackerVariableBytes = Option.none ∧
      firstOcc out.str endPackerVariableBytes = Option.none := by
  have hedge : notSpaceEdge ['a'] := by
    constructor
    · intro c hc
      simp at hc
      subst hc
      decide
    · intro c hc
      simp at hc
      subst hc
      decide
  have hwf : wfTemplate w6map ['x'] w6items := by
    refine ⟨by decide, ?_⟩
    intro p hp
    simp only [w6items, List.mem_singleton] at hp
    subst hp
    exact ⟨⟨['.', 'a'], ['a'], Or.inr ⟨rfl, by decide, by decide, hedge⟩,
      Or.inl rfl, ['v'], by decide⟩, by decide⟩
  have hvb : valuesBraceFree w6map := by
    intro name v h
    simp only [w6map] at h
    split at h
    · have hv2 := Option.some.inj h
      subst hv2
      decide
    · simp at h
  exact ⟨hwf, hvb, resolvePackerVariables_all_present w6map ['x'] w6items hwf hvb⟩

end Breadcrumbs
